import Mathlib

/-!
Verification development for the subtitle translation engine in
src/Translate_embed_sub_Final.py.

The Python source is shallowly embedded: each method of
CombinedSubtitleProcessorGUI that the claims touch becomes a pure Lean
function.  Instance attributes (translation cache, counters, endpoint
rotation index) become an explicit EngineState record threaded through the
functions; the GUI variables a method reads (languages, throttle mode,
subtitle color, naming pattern) become parameters; the network becomes an
oracle mapping the attempt number to a classified response; the on-disk
subtitle files become an association list from path to parsed lines.
Sleeps and log lines have no observable effect on the modelled state and are
omitted.  Python str.strip, str.upper, str.lower and slicing are modelled
character-wise on the underlying character list.
-/

namespace ST

/-- Model of Python str.strip(): drop whitespace from both ends. -/
def pyStrip (s : String) : String :=
  ⟨((s.data.dropWhile Char.isWhitespace).reverse.dropWhile Char.isWhitespace).reverse⟩

/-- Model of Python str.upper() (ASCII case mapping). -/
def pyUpper (s : String) : String :=
  ⟨s.data.map Char.toUpper⟩

/-- Model of Python str.lower() (ASCII case mapping). -/
def pyLower (s : String) : String :=
  ⟨s.data.map Char.toLower⟩

/-- Model of the Python slice s[a:b] (with 0 ≤ a ≤ b within the string). -/
def pySlice (s : String) (a b : Nat) : String :=
  ⟨(s.data.drop a).take (b - a)⟩

/-- Association-list model of a Python dict: lookup of a key. -/
def lookupA {κ α : Type} [DecidableEq κ] (k : κ) : List (κ × α) → Option α
  | [] => none
  | (k', v) :: t => if k = k' then some v else lookupA k t

/-- Association-list model of a Python dict: assignment d[k] = v
(overwrite in place if present, append otherwise). -/
def setA {κ α : Type} [DecidableEq κ] (k : κ) (v : α) : List (κ × α) → List (κ × α)
  | [] => [(k, v)]
  | (k', v') :: t => if k = k' then (k, v) :: t else (k', v') :: setA k v t

/-- Association-list model of a Python dict: del d[k]. -/
def eraseA {κ α : Type} [DecidableEq κ] (k : κ) : List (κ × α) → List (κ × α)
  | [] => []
  | (k', v') :: t => if k = k' then t else (k', v') :: eraseA k t

/-- MAX_FAILURES_PER_LINE from the configuration section (line 76). -/
def MAX_FAILURES_PER_LINE : Nat := 3

/-- One pysrt subtitle line: stable index and text. -/
structure Sub where
  index : Nat
  text : String
deriving DecidableEq

/-- The mutable instance attributes of the translation engine that
translate_text_direct and get_next_endpoint read and write:
translation_cache, cache_hits, request_count, error_count, api_endpoints,
current_endpoint_index. -/
structure EngineState where
  translation_cache : List (String × String)
  cache_hits : Nat
  request_count : Nat
  error_count : Nat
  api_endpoints : List String
  current_endpoint_index : Nat
deriving DecidableEq

/-- Classified outcome of one HTTP attempt inside translate_text_direct:
an HTTP 200 whose JSON parses to the given translated text; a transient
condition (HTTP 429/500/502/503/504 or a timeout), which the loop retries;
or a terminal condition (any other status, a JSON parse failure, or a
non-timeout exception), which increments error_count and breaks the loop. -/
inductive NetResponse
  | ok (translated : String)
  | transient
  | terminal
deriving DecidableEq

/-- get_next_endpoint (lines 1742-1746): return the endpoint at the shared
index and advance the index modulo the endpoint count.  An out-of-range
index (only possible with an empty list) is the Python IndexError case,
reported here as none with the state unchanged. -/
def get_next_endpoint (st : EngineState) : Option String × EngineState :=
  match st.api_endpoints.get? st.current_endpoint_index with
  | none => (none, st)
  | some e =>
    (some e, { st with current_endpoint_index :=
      (st.current_endpoint_index + 1) % st.api_endpoints.length })

/-- The cache key f-string of translate_text_direct (line 1624). -/
def cacheKey (source_code target_code stripped : String) : String :=
  source_code ++ "|" ++ target_code ++ "|" ++ stripped

/-- The while-loop of translate_text_direct (lines 1658-1724).  attempt is
the Python loop variable; remaining is the number of loop iterations still
allowed (the loop runs while attempt ≤ max_retries, so it is entered with
remaining = max_retries + 1).  net gives the classified response of the
HTTP request issued on each attempt.  Returns the state together with
some translated on success and none when the loop exits without success. -/
def translateAttempts (inProgress : Bool) (net : Nat → NetResponse)
    (stripped : String) : Nat → Nat → EngineState → EngineState × Option String
  | _, 0, st => (st, none)
  | attempt, remaining + 1, st =>
    if inProgress = false then (st, none)
    else
      let st1 := { st with request_count := st.request_count + 1 }
      match get_next_endpoint st1 with
      | (none, st2) => ({ st2 with error_count := st2.error_count + 1 }, none)
      | (some _, st2) =>
        match net attempt with
        | NetResponse.ok translated =>
          if translated ≠ "" ∧ pyStrip translated ≠ "" ∧ pyStrip translated ≠ stripped then
            (st2, some translated)
          else
            translateAttempts inProgress net stripped (attempt + 1) remaining st2
        | NetResponse.transient =>
          translateAttempts inProgress net stripped (attempt + 1) remaining st2
        | NetResponse.terminal =>
          ({ st2 with error_count := st2.error_count + 1 }, none)

/-- translate_text_direct (lines 1613-1740).  languages is the
self.languages dict; inProgress is self.translation_in_progress (constant
for the duration of one call in this sequential model); net is the network
oracle for this call.  Returns the new engine state and the result text. -/
def translate_text_direct (languages : String → Option String) (inProgress : Bool)
    (net : Nat → NetResponse) (st : EngineState)
    (text target_lang source_lang : String) (max_retries : Nat) :
    EngineState × String :=
  let stripped := pyStrip text
  if stripped = "" then (st, text)
  else
    match languages target_lang,
      (if source_lang = "Auto" then some "auto" else languages source_lang) with
    | some target_code, some source_code =>
      let key := cacheKey source_code target_code stripped
      match lookupA key st.translation_cache with
      | some cached => ({ st with cache_hits := st.cache_hits + 1 }, cached)
      | none =>
        match translateAttempts inProgress net stripped 0 (max_retries + 1) st with
        | (st1, some translated) =>
          ({ st1 with translation_cache := setA key translated st1.translation_cache },
            translated)
        | (st1, none) =>
          ({ st1 with error_count := st1.error_count + 1 }, text)
    | _, _ => (st, text)

/-- The color-styling envelope applied to a successful translation in
translate_subtitle (lines 1760-1766) and in the retry pass (lines
1920-1926): an ASS override pair or an HTML font tag, applied only when a
non-white subtitle color is configured. -/
def style_text (subtitle_color format_var translated : String) : String :=
  if subtitle_color ≠ "" ∧ pyUpper subtitle_color ≠ "#FFFFFF" then
    if format_var = "ASS/SSA Compatible" then
      let ass_color := "&H" ++ pySlice subtitle_color 5 7 ++ pySlice subtitle_color 3 5
        ++ pySlice subtitle_color 1 3 ++ "&"
      "\x7b\\c" ++ ass_color ++ "\x7d" ++ translated ++ "\x7b\\c&HFFFFFF&\x7d"
    else
      "<font color=\"" ++ subtitle_color ++ "\">" ++ translated ++ "</font>"
  else translated

/-- translate_subtitle (lines 1748-1768): the per-task wrapper run in the
worker pool.  Returns the new engine state together with the tuple
(index, text, success, original_text) that the collection loop consumes. -/
def translate_subtitle (languages : String → Option String) (inProgress : Bool)
    (net : Nat → NetResponse) (subtitle_color format_var : String)
    (st : EngineState) (sub : Sub) (source_lang target_lang : String) :
    EngineState × (Nat × String × Bool × String) :=
  let original_text := sub.text
  if inProgress = false then (st, (sub.index, original_text, false, original_text))
  else
    let r := translate_text_direct languages inProgress net st original_text
      target_lang source_lang 3
    let translated := r.2
    if translated ≠ "" ∧ pyStrip translated ≠ pyStrip original_text then
      (r.1, (sub.index, style_text subtitle_color format_var translated, true,
        original_text))
    else
      (r.1, (sub.index, original_text, false, original_text))

/-- A failure record: one value of self.untranslated_line_details, keyed by
(output file path, line index). -/
structure FR where
  original_text : String
  failure_count : Nat
deriving DecidableEq

/-- Key of a failure record: (output_path, line index). -/
abbrev Key := String × Nat

/-- self.untranslated_line_details as an association list. -/
abbrev FRMap := List (Key × FR)

/-- The on-disk subtitle files visible to the engine: path to parsed lines. -/
abbrev FileSystem := List (String × List Sub)

/-- save_subtitles (lines 2284-2291): write the lines to the output path. -/
def save_subtitles (subs : List Sub) (output_path : String) (fs : FileSystem) :
    FileSystem :=
  setA output_path subs fs

/-- One completed future observed by the collection loop of
process_file_parallel: either the tuple returned by translate_subtitle, a
CancelledError (ignored), or some other exception from the worker (handled
at lines 1854-1863). -/
inductive Event
  | result (idx : Nat) (text : String) (success : Bool) (original : String)
  | cancelledFut
  | raised (idx : Nat)
deriving DecidableEq

/-- A run outcome: normal completion, or the InterruptedError raised on
cooperative cancellation, which the caller treats as a first-class
cancelled outcome distinct from an error (lines 1581-1595). -/
inductive Outcome (α : Type)
  | done (value : α)
  | cancelled
deriving DecidableEq

/-- The loop-local state of the result-collection loop of
process_file_parallel: the results dict, the shared failure-record dict,
and the processed / untranslated counters. -/
structure CollectSt where
  results : List (Nat × String)
  untr : FRMap
  processed : Nat
  untranslated : Nat
deriving DecidableEq

/-- The result-collection loop of process_file_parallel (lines 1825-1863).
Each list entry carries the value of self.translation_in_progress observed
at the top of that iteration; observing false raises InterruptedError
(modelled as Outcome.cancelled).  A normal result is keyed into the results
dict; an unsuccessful one creates or bumps the failure record for
(output_path, index); a successful one deletes any stale record. -/
def collectEvents (output_path : String) (subs : List Sub) :
    List (Bool × Event) → CollectSt → Outcome CollectSt
  | [], s => Outcome.done s
  | (flag, ev) :: rest, s =>
    if flag = false then Outcome.cancelled
    else
      match ev with
      | Event.result idx text success original =>
        let s1 := { s with
          results := setA idx text s.results, processed := s.processed + 1 }
        if success = false then
          let info := (lookupA (output_path, idx) s1.untr).getD ⟨"", 0⟩
          collectEvents output_path subs rest
            { s1 with
              untranslated := s1.untranslated + 1,
              untr := setA (output_path, idx) ⟨original, info.failure_count + 1⟩ s1.untr }
        else
          collectEvents output_path subs rest
            { s1 with untr := eraseA (output_path, idx) s1.untr }
      | Event.cancelledFut => collectEvents output_path subs rest s
      | Event.raised idx =>
        let original := ((subs.find? (fun x => x.index = idx)).map Sub.text).getD ""
        let info := (lookupA (output_path, idx) s.untr).getD ⟨"", 0⟩
        collectEvents output_path subs rest
          { s with
            untranslated := s.untranslated + 1,
            untr := setA (output_path, idx) ⟨original, info.failure_count + 1⟩ s.untr,
            results := setA idx original s.results }

/-- The reassembly loop of process_file_parallel (lines 1865-1867): each
line whose index appears in the results dict receives the collected text;
the list order of the lines is untouched. -/
def reassemble (subs : List Sub) (results : List (Nat × String)) : List Sub :=
  subs.map fun s =>
    match lookupA s.index results with
    | some t => { s with text := t }
    | none => s

/-- process_file_parallel (lines 1807-1870), given the parsed input lines
and the stream of completed futures.  An empty file is saved empty at once.
Cancellation observed during collection raises before the save, so the
returned file system is unchanged in that case.  On completion it returns
(reassembled lines, failure records, processed, untranslated) and the file
system after the save. -/
def process_file_parallel (output_path : String) (subs : List Sub)
    (events : List (Bool × Event)) (untr0 : FRMap) (fs : FileSystem) :
    Outcome (List Sub × FRMap × Nat × Nat) × FileSystem :=
  if subs.length = 0 then
    (Outcome.done ([], untr0, 0, 0), save_subtitles [] output_path fs)
  else
    match collectEvents output_path subs events ⟨[], untr0, 0, 0⟩ with
    | Outcome.cancelled => (Outcome.cancelled, fs)
    | Outcome.done s =>
      let subs1 := reassemble subs s.results
      (Outcome.done (subs1, s.untr, s.processed, s.untranslated),
        save_subtitles subs1 output_path fs)

/-- The shape of self.translate_text_direct as the retry pass calls it
(line 1913, with max_retries = 3): given the running index of the call
within the run, the engine state, the text and the target and source
languages, produce the new state and the result text.  The retry scheduler
theorems quantify over this, and the end-to-end driver instantiates it with
translate_text_direct itself. -/
abbrev TM := Nat → EngineState → String → String → String → EngineState × String

/-- Loop-local state of the per-file item loop of
retry_untranslated_lines_sequential (lines 1894-1930).  attempted and
successKeys are observation fields recording which records received a
translation attempt and which succeeded in this pass; they correspond to no
program variable and influence nothing. -/
structure PassSt where
  engine : EngineState
  callNo : Nat
  subs : List Sub
  modified : Bool
  nextUntr : FRMap
  successes : Nat
  attempted : List Key
  successKeys : List Key
deriving DecidableEq

/-- The in-place mutation sub.text = formatted, where sub was produced by
next(s for s in subs if s.index == index): only the first line with the
given index changes. -/
def updateFirst (idx : Nat) (t : String) : List Sub → List Sub
  | [] => []
  | s :: ss => if s.index = idx then { s with text := t } :: ss else s :: updateFirst idx t ss

/-- The per-record loop of retry_untranslated_lines_sequential (lines
1894-1930) over the items of one output file.  Observing
translation_in_progress = false raises InterruptedError, modelled by the
true flag in the result.  A record at the failure cap is carried unchanged;
a record whose line is gone is capped; a record whose line text no longer
matches the stored original is dropped (idempotence guard); otherwise one
translation attempt is made, writing the styled text on success and
incrementing the failure count on failure. -/
def processItems (inProgress : Bool) (tm : TM)
    (target_lang source_lang subtitle_color format_var : String) :
    List (Key × FR) → PassSt → PassSt × Bool
  | [], s => (s, false)
  | (key, details) :: rest, s =>
    if inProgress = false then (s, true)
    else
      let failure_count := details.failure_count
      if MAX_FAILURES_PER_LINE ≤ failure_count then
        processItems inProgress tm target_lang source_lang subtitle_color format_var rest
          { s with nextUntr := setA key details s.nextUntr }
      else
        match s.subs.find? (fun x => x.index = key.2) with
        | none =>
          let d1 := { details with failure_count := MAX_FAILURES_PER_LINE }
          processItems inProgress tm target_lang source_lang subtitle_color format_var rest
            { s with nextUntr := setA key d1 s.nextUntr }
        | some sub =>
          if pyStrip sub.text ≠ pyStrip details.original_text then
            processItems inProgress tm target_lang source_lang subtitle_color format_var
              rest s
          else
            let r := tm s.callNo s.engine details.original_text target_lang source_lang
            let s1 := { s with
              engine := r.1, callNo := s.callNo + 1, attempted := s.attempted ++ [key] }
            if pyStrip r.2 ≠ "" ∧ pyStrip r.2 ≠ pyStrip details.original_text then
              processItems inProgress tm target_lang source_lang subtitle_color format_var
                rest
                { s1 with
                  successes := s1.successes + 1,
                  modified := true,
                  subs := updateFirst key.2 (style_text subtitle_color format_var r.2) s1.subs,
                  successKeys := s1.successKeys ++ [key] }
            else
              let d1 := { details with failure_count := failure_count + 1 }
              processItems inProgress tm target_lang source_lang subtitle_color format_var
                rest { s1 with nextUntr := setA key d1 s1.nextUntr }

/-- The missing-output-file branch of the retry pass (lines 1884-1889):
every record of the file has its failure count set to the cap and is
carried into next_untranslated. -/
def capAll (items : FRMap) (acc : FRMap) : FRMap :=
  items.foldl
    (fun m kd => setA kd.1 { kd.2 with failure_count := MAX_FAILURES_PER_LINE } m) acc

/-- Accumulated state of one whole retry pass across its files. -/
structure PassAcc where
  engine : EngineState
  callNo : Nat
  fs : FileSystem
  nextUntr : FRMap
  successes : Nat
  attempted : List Key
  successKeys : List Key
deriving DecidableEq

/-- Processing of one output file in the retry pass (lines 1883-1933): the
missing-file branch caps all its records; otherwise the file is opened, its
items are processed, and the file is saved back only when at least one line
was modified.  The Bool is the InterruptedError flag; on cancellation the
pending save of the current file is lost. -/
def processOneFile (inProgress : Bool) (tm : TM)
    (target_lang source_lang subtitle_color format_var : String)
    (acc : PassAcc) (output_path : String) (items : FRMap) : PassAcc × Bool :=
  match lookupA output_path acc.fs with
  | none => ({ acc with nextUntr := capAll items acc.nextUntr }, false)
  | some subs =>
    let r := processItems inProgress tm target_lang source_lang subtitle_color format_var
      items
      { engine := acc.engine, callNo := acc.callNo, subs := subs, modified := false,
        nextUntr := acc.nextUntr, successes := acc.successes,
        attempted := acc.attempted, successKeys := acc.successKeys }
    let s := r.1
    if r.2 then
      ({ acc with
        engine := s.engine, callNo := s.callNo, nextUntr := s.nextUntr,
        successes := s.successes, attempted := s.attempted,
        successKeys := s.successKeys }, true)
    else
      ({ engine := s.engine, callNo := s.callNo,
         fs := if s.modified then save_subtitles s.subs output_path acc.fs else acc.fs,
         nextUntr := s.nextUntr, successes := s.successes, attempted := s.attempted,
         successKeys := s.successKeys }, false)

/-- The defaultdict(list) grouping of failure records by output file (lines
1876-1878): the distinct output paths in order of first occurrence. -/
def groupPaths (items : FRMap) : List String :=
  items.foldl (fun acc kd => if kd.1.1 ∈ acc then acc else acc ++ [kd.1.1]) []

/-- The items grouped under one output path, in dict iteration order. -/
def groupItems (items : FRMap) (p : String) : FRMap :=
  items.filter (fun kd => kd.1.1 = p)

/-- The per-file loop of the retry pass over the grouped records. -/
def retryPassAux (inProgress : Bool) (tm : TM)
    (target_lang source_lang subtitle_color format_var : String) (items : FRMap) :
    List String → PassAcc → PassAcc × Bool
  | [], acc => (acc, false)
  | p :: ps, acc =>
    let r := processOneFile inProgress tm target_lang source_lang subtitle_color
      format_var acc p (groupItems items p)
    if r.2 then (r.1, true)
    else retryPassAux inProgress tm target_lang source_lang subtitle_color format_var
      items ps r.1

/-- retry_untranslated_lines_sequential (lines 1872-1937): one sequential
retry pass.  Returns the accumulated pass state (with nextUntr the new
self.untranslated_line_details, successes the first component of the return
value, and nextUntr.length the remaining count) and the InterruptedError
flag. -/
def retry_untranslated_lines_sequential (inProgress : Bool) (tm : TM)
    (target_lang source_lang subtitle_color format_var : String)
    (engine : EngineState) (callNo : Nat) (untr : FRMap) (fs : FileSystem) :
    PassAcc × Bool :=
  if untr = [] then
    ({ engine := engine, callNo := callNo, fs := fs, nextUntr := [], successes := 0,
       attempted := [], successKeys := [] }, false)
  else
    retryPassAux inProgress tm target_lang source_lang subtitle_color format_var untr
      (groupPaths untr)
      { engine := engine, callNo := callNo, fs := fs, nextUntr := [], successes := 0,
        attempted := [], successKeys := [] }

/-- Submission of one TranslationTask per line (lines 1814-1824),
sequentialized: translate_subtitle runs once per line in submission order,
threading the engine state; call k of the run uses the network oracle
nets k.  Returns the final state, the next call number and the produced
events. -/
def runTasks (languages : String → Option String) (inProgress : Bool)
    (nets : Nat → Nat → NetResponse) (subtitle_color format_var : String)
    (source_lang target_lang : String) :
    List Sub → EngineState → Nat → EngineState × Nat × List Event
  | [], st, callNo => (st, callNo, [])
  | sub :: rest, st, callNo =>
    let r := translate_subtitle languages inProgress (nets callNo) subtitle_color
      format_var st sub source_lang target_lang
    let rr := runTasks languages inProgress nets subtitle_color format_var source_lang
      target_lang rest r.1 (callNo + 1)
    (rr.1, rr.2.1, Event.result r.2.1 r.2.2.1 r.2.2.2.1 r.2.2.2.2 :: rr.2.2)

/-- State threaded through the retry loop of translate_files_thread. -/
structure RunSt where
  engine : EngineState
  callNo : Nat
  fs : FileSystem
  untr : FRMap
  retryAttempted : List Key
  retrySuccesses : Nat
  wasCancelled : Bool
deriving DecidableEq

/-- The retry loop of translate_files_thread (lines 1544-1560): up to
max_retries passes while untranslated records remain, stopping early when a
pass leaves none remaining, and stopping with the cancelled outcome if the
shared flag is observed false or a pass raises InterruptedError (in which
case self.untranslated_line_details keeps its pre-pass value, as the
assignment at line 1935 is skipped). -/
def retryLoop (inProgress : Bool) (tm : TM)
    (target_lang source_lang subtitle_color format_var : String) :
    Nat → RunSt → RunSt
  | 0, s => s
  | fuel + 1, s =>
    if s.untr = [] then s
    else if inProgress = false then { s with wasCancelled := true }
    else
      let r := retry_untranslated_lines_sequential inProgress tm target_lang source_lang
        subtitle_color format_var s.engine s.callNo s.untr s.fs
      let acc := r.1
      if r.2 then
        { s with
          engine := acc.engine, callNo := acc.callNo, fs := acc.fs,
          retryAttempted := s.retryAttempted ++ acc.attempted, wasCancelled := true }
      else
        let s1 : RunSt :=
          { engine := acc.engine, callNo := acc.callNo, fs := acc.fs,
            untr := acc.nextUntr,
            retryAttempted := s.retryAttempted ++ acc.attempted,
            retrySuccesses := s.retrySuccesses + acc.successes, wasCancelled := false }
        if acc.nextUntr.length = 0 then s1
        else retryLoop inProgress tm target_lang source_lang subtitle_color format_var
          fuel s1

/-- Observable result of one translation run over a single file. -/
structure RunResult where
  engine : EngineState
  fs : FileSystem
  untr : FRMap
  initialAttempts : Nat
  retryAttempted : List Key
  final_untranslated_count : Nat
  wasCancelled : Bool
deriving DecidableEq

/-- The translation stage of translate_files_thread (lines 1447-1562) for
one subtitle file: the initial parallel pass (one translate_subtitle call
per line, events collected in submission order) followed by the sequential
retry loop; final_untranslated_count is len(self.untranslated_line_details)
at line 1562.  The retry passes call translate_text_direct with
max_retries = 3, the k-th translation call of the run using oracle nets k. -/
def translate_files_run (languages : String → Option String) (inProgress : Bool)
    (nets : Nat → Nat → NetResponse)
    (subtitle_color format_var source_lang target_lang output_path : String)
    (subs : List Sub) (st0 : EngineState) (fs0 : FileSystem) (max_retries : Nat) :
    RunResult :=
  let t := runTasks languages inProgress nets subtitle_color format_var source_lang
    target_lang subs st0 0
  let events := t.2.2.map (fun e => (inProgress, e))
  match process_file_parallel output_path subs events [] fs0 with
  | (Outcome.cancelled, fs1) =>
    { engine := t.1, fs := fs1, untr := [], initialAttempts := subs.length,
      retryAttempted := [], final_untranslated_count := 0, wasCancelled := true }
  | (Outcome.done d, fs1) =>
    let tm : TM := fun k st text tgt src =>
      translate_text_direct languages inProgress (nets k) st text tgt src 3
    let s0 : RunSt :=
      { engine := t.1, callNo := t.2.1, fs := fs1, untr := d.2.1,
        retryAttempted := [], retrySuccesses := 0, wasCancelled := false }
    let sF := retryLoop inProgress tm target_lang source_lang subtitle_color format_var
      max_retries s0
    { engine := sF.engine, fs := sF.fs, untr := sF.untr,
      initialAttempts := subs.length, retryAttempted := sF.retryAttempted,
      final_untranslated_count := sF.untr.length, wasCancelled := sF.wasCancelled }

/-- Model of posixpath.split: split a path into (head, tail) at the last
slash, stripping trailing slashes from the head unless it is all slashes. -/
def pathSplit (p : String) : String × String :=
  let chars := p.data
  let tail := (chars.reverse.takeWhile (fun c => c ≠ '/')).reverse
  let head0 := chars.take (chars.length - tail.length)
  let head :=
    if head0 ≠ [] ∧ ¬ head0.all (fun c => c = '/') then
      (head0.reverse.dropWhile (fun c => c = '/')).reverse
    else head0
  (⟨head⟩, ⟨tail⟩)

/-- Model of os.path.dirname. -/
def dirname (p : String) : String := (pathSplit p).1

/-- Model of os.path.basename. -/
def basename (p : String) : String := (pathSplit p).2

/-- Model of posixpath.splitext on a name without slashes: split off the
extension at the last dot, unless every character before that dot is a dot. -/
def splitextChars (l : List Char) : List Char × List Char :=
  let afterDot := l.reverse.takeWhile (fun c => c ≠ '.')
  if afterDot.length = l.length then (l, [])
  else
    let dotIndex := l.length - afterDot.length - 1
    if (l.take dotIndex).all (fun c => c = '.') then (l, [])
    else (l.take dotIndex, l.drop dotIndex)

/-- Model of Python str.split(c): all segments, empty segments included. -/
def splitOnChar (c : Char) : List Char → List (List Char)
  | [] => [[]]
  | x :: xs =>
    match splitOnChar c xs with
    | [] => [[x]]
    | h :: t => if x = c then [] :: h :: t else (x :: h) :: t

/-- Model of the Python join "." of a list of segments. -/
def joinDots : List (List Char) → List Char
  | [] => []
  | [x] => x
  | x :: y :: t => x ++ '.' :: joinDots (y :: t)

/-- Whether l ends with the given suffix (Python str.endswith). -/
def endsWithChars (l suffix : List Char) : Bool :=
  decide (l.reverse.take suffix.length = suffix.reverse)

/-- Model of Python str.isalpha (ASCII approximation). -/
def isalphaChars (l : List Char) : Bool :=
  decide (l ≠ []) && l.all Char.isAlpha

/-- Model of os.path.join for the two-argument uses in the source. -/
def pathJoin (a b : String) : String :=
  if b.data.head? = some '/' then b
  else if a = "" ∨ a.data.getLast? = some '/' then a ++ b
  else a ++ "/" ++ b

/-- get_output_path (lines 2253-2282): build the output file path from the
input path, the target language and the configured naming pattern.  The
computed existing_lang of lines 2261-2263 is never read afterwards and is
omitted.  The defensive except branch at lines 2279-2282 is unreachable in
this pure model (every string operation involved is total). -/
def get_output_path (languages : String → Option String) (naming_var : String)
    (input_path target_lang : String) : String :=
  let directory := dirname input_path
  let be := splitextChars (basename input_path).data
  let ext : String := ⟨be.2⟩
  let base0 := be.1
  let base :=
    if endsWithChars (base0.map Char.toLower) "_cleaned".data then
      base0.take (base0.length - 8)
    else base0
  let parts := splitOnChar '.' base
  let lastPart := parts.getLastD []
  let core : String :=
    if 1 < parts.length ∧ isalphaChars lastPart = true
        ∧ (lastPart.length = 2 ∨ lastPart.length = 3) then
      ⟨joinDots parts.dropLast⟩
    else ⟨base⟩
  let code := (languages target_lang).getD (pyLower (pySlice target_lang 0 2))
  let output_name :=
    if naming_var = "Original_language" then core ++ "_" ++ code ++ ext
    else if naming_var = "language.Original" then code ++ "." ++ core ++ ext
    else core ++ "." ++ code ++ ext
  pathJoin directory output_name

/-! ### Basic association-list lemmas -/

theorem lookupA_setA_self {κ α : Type} [DecidableEq κ] (k : κ) (v : α)
    (m : List (κ × α)) : lookupA k (setA k v m) = some v := by
  induction m with
  | nil => simp [setA, lookupA]
  | cons hd tl ih =>
    by_cases h : k = hd.1
    · simp [setA, lookupA, h]
    · cases hd with
      | mk k' v' =>
        simp only [setA, lookupA]
        rw [if_neg h]
        simp only [lookupA]
        rw [if_neg h]
        exact ih

theorem lookupA_setA_ne {κ α : Type} [DecidableEq κ] (k k' : κ) (v : α)
    (m : List (κ × α)) (h : k ≠ k') : lookupA k (setA k' v m) = lookupA k m := by
  induction m with
  | nil => simp [setA, lookupA, h]
  | cons hd tl ih =>
    cases hd with
    | mk k0 v0 =>
      by_cases h0 : k' = k0
      · subst h0
        simp [setA, lookupA, h]
      · simp only [setA, if_neg h0]
        by_cases h1 : k = k0
        · simp [lookupA, h1]
        · simp only [lookupA, if_neg h1]
          exact ih

theorem lookupA_mem {κ α : Type} [DecidableEq κ] {k : κ} {v : α}
    {m : List (κ × α)} (h : lookupA k m = some v) : (k, v) ∈ m := by
  induction m with
  | nil => simp [lookupA] at h
  | cons hd tl ih =>
    cases hd with
    | mk k0 v0 =>
      simp only [lookupA] at h
      by_cases h1 : k = k0
      · rw [if_pos h1] at h
        cases h
        subst h1
        exact List.mem_cons_self _ _
      · rw [if_neg h1] at h
        exact List.mem_cons_of_mem _ (ih h)

theorem mem_lookupA {κ α : Type} [DecidableEq κ] {k : κ} {v : α}
    {m : List (κ × α)} (hm : (m.map Prod.fst).Nodup) (h : (k, v) ∈ m) :
    lookupA k m = some v := by
  induction m with
  | nil => simp at h
  | cons hd tl ih =>
    cases hd with
    | mk k0 v0 =>
      simp only [List.map_cons, List.nodup_cons] at hm
      rcases List.mem_cons.mp h with h1 | h1
      · cases h1
        simp [lookupA]
      · have hk : k ≠ k0 := by
          intro he
          subst he
          exact hm.1 (List.mem_map.mpr ⟨(k, v), h1, rfl⟩)
        simp only [lookupA, if_neg hk]
        exact ih hm.2 h1

/-! ### C8: the endpoint rotator is strictly round-robin -/

/-- The engine state after k successive calls of get_next_endpoint. -/
def rotatorIter (st : EngineState) : Nat → EngineState
  | 0 => st
  | k + 1 => (get_next_endpoint (rotatorIter st k)).2

theorem get_next_endpoint_fst (st : EngineState) :
    (get_next_endpoint st).1 = st.api_endpoints.get? st.current_endpoint_index := by
  unfold get_next_endpoint
  cases h : st.api_endpoints.get? st.current_endpoint_index <;> simp [h]

theorem get_next_endpoint_endpoints (st : EngineState) :
    (get_next_endpoint st).2.api_endpoints = st.api_endpoints := by
  unfold get_next_endpoint
  cases h : st.api_endpoints.get? st.current_endpoint_index <;> simp [h]

theorem rotatorIter_invariant (st : EngineState) (h0 : st.current_endpoint_index = 0)
    (hne : st.api_endpoints ≠ []) (k : Nat) :
    (rotatorIter st k).api_endpoints = st.api_endpoints ∧
      (rotatorIter st k).current_endpoint_index = k % st.api_endpoints.length := by
  have hlen : 0 < st.api_endpoints.length := List.length_pos.mpr hne
  induction k with
  | zero => simp [rotatorIter, h0]
  | succ k ih =>
    have hidx : (rotatorIter st k).current_endpoint_index < st.api_endpoints.length :=
      ih.2 ▸ Nat.mod_lt _ hlen
    have hget : (rotatorIter st k).api_endpoints.get?
        (rotatorIter st k).current_endpoint_index
        = some ((rotatorIter st k).api_endpoints.get ⟨_, ih.1 ▸ hidx⟩) :=
      List.get?_eq_get _
    constructor
    · rw [rotatorIter, get_next_endpoint_endpoints, ih.1]
    · show (get_next_endpoint (rotatorIter st k)).2.current_endpoint_index = _
      unfold get_next_endpoint
      rw [hget]
      simp only
      rw [ih.1, ih.2, Nat.mod_add_mod]

/-- C8: get_next_endpoint is strictly round-robin over the fixed endpoint
list.  Starting from index 0, the k-th call (counting from 0) returns the
endpoint at position k mod N, where N is the length of the list, and the
shared index is below N after every call. -/
theorem C8_round_robin (st : EngineState) (h0 : st.current_endpoint_index = 0)
    (hne : st.api_endpoints ≠ []) (k : Nat) :
    (get_next_endpoint (rotatorIter st k)).1
        = st.api_endpoints.get? (k % st.api_endpoints.length) ∧
      (rotatorIter st (k + 1)).current_endpoint_index < st.api_endpoints.length := by
  have hlen : 0 < st.api_endpoints.length := List.length_pos.mpr hne
  have h := rotatorIter_invariant st h0 hne k
  constructor
  · rw [get_next_endpoint_fst, h.1, h.2]
  · rw [(rotatorIter_invariant st h0 hne (k + 1)).2]
    exact Nat.mod_lt _ hlen

/-- Witness for C8 at a concrete rotator state: three endpoints, fifth call
(k = 4) returns the endpoint at position 1, and the index stays in range. -/
theorem C8_round_robin_witness :
    (get_next_endpoint (rotatorIter ⟨[], 0, 0, 0, ["e1", "e2", "e3"], 0⟩ 4)).1
        = some "e2" ∧
      (rotatorIter ⟨[], 0, 0, 0, ["e1", "e2", "e3"], 0⟩ 5).current_endpoint_index < 3 := by
  have h := C8_round_robin ⟨[], 0, 0, 0, ["e1", "e2", "e3"], 0⟩ rfl (by decide) 4
  exact ⟨h.1.trans (by decide), h.2⟩

/-! ### C1: a cache hit returns the cached value and touches nothing else -/

/-- C1: when the cache key (source code, target code, stripped text) is
present in the translation cache, translate_text_direct returns the cached
value and the only state change is cache_hits + 1: the request counter, the
error counter, the cache and the endpoint rotation index are unchanged, so
no network request is issued and no endpoint is consumed. -/
theorem C1_cache_hit (languages : String → Option String) (inProgress : Bool)
    (net : Nat → NetResponse) (st : EngineState)
    (text target_lang source_lang : String) (max_retries : Nat)
    (tc sc v : String)
    (hs : pyStrip text ≠ "")
    (htc : languages target_lang = some tc)
    (hsc : (if source_lang = "Auto" then some "auto" else languages source_lang) = some sc)
    (hhit : lookupA (cacheKey sc tc (pyStrip text)) st.translation_cache = some v) :
    translate_text_direct languages inProgress net st text target_lang source_lang
        max_retries
      = ({ st with cache_hits := st.cache_hits + 1 }, v) := by
  unfold translate_text_direct
  simp only [htc, hsc, hhit, if_neg hs]

/-- Witness for C1: a concrete state whose cache holds the key
auto|es|hola; the call returns the cached value with only cache_hits
bumped. -/
theorem C1_cache_hit_witness :
    translate_text_direct (fun n => if n = "Spanish" then some "es" else none) true
        (fun _ => NetResponse.terminal)
        ⟨[("auto|es|hola", "cached")], 5, 7, 2, ["e1"], 0⟩ "hola" "Spanish" "Auto" 3
      = (⟨[("auto|es|hola", "cached")], 6, 7, 2, ["e1"], 0⟩, "cached") := by
  have h := C1_cache_hit (fun n => if n = "Spanish" then some "es" else none) true
    (fun _ => NetResponse.terminal)
    ⟨[("auto|es|hola", "cached")], 5, 7, 2, ["e1"], 0⟩ "hola" "Spanish" "Auto" 3
    "es" "auto" "cached" (by decide) (by decide) (by decide) (by decide)
  exact h

/-! ### The attempt loop under a service that only returns identical text -/

theorem get_next_endpoint_cache (st : EngineState) :
    (get_next_endpoint st).2.translation_cache = st.translation_cache := by
  unfold get_next_endpoint
  cases h : st.api_endpoints.get? st.current_endpoint_index <;> simp [h]

/-- If every HTTP 200 response parses to text whose stripped form equals
stripped, the attempt loop never succeeds, and it leaves the cache and the
endpoint list unchanged. -/
theorem translateAttempts_identical (inProgress : Bool) (net : Nat → NetResponse)
    (stripped : String)
    (hid : ∀ a t, net a = NetResponse.ok t → pyStrip t = stripped) :
    ∀ remaining attempt st, ∃ st1,
      translateAttempts inProgress net stripped attempt remaining st = (st1, none)
        ∧ st1.translation_cache = st.translation_cache := by
  intro remaining
  induction remaining with
  | zero => intro attempt st; exact ⟨st, rfl, rfl⟩
  | succ remaining ih =>
    intro attempt st
    by_cases hp : inProgress = false
    · exact ⟨st, by simp [translateAttempts, hp], rfl⟩
    · simp only [translateAttempts, if_neg hp]
      set st1 := { st with request_count := st.request_count + 1 } with hst1
      have hc1 : st1.translation_cache = st.translation_cache := rfl
      cases hgne : get_next_endpoint st1 with
      | mk eo st2 =>
        have hc2 : st2.translation_cache = st.translation_cache := by
          have := get_next_endpoint_cache st1
          rw [hgne] at this
          exact this.trans hc1
        cases eo with
        | none => exact ⟨_, rfl, hc2⟩
        | some e =>
          cases hnet : net attempt with
          | ok translated =>
            have hf : ¬ (translated ≠ "" ∧ pyStrip translated ≠ ""
                ∧ pyStrip translated ≠ stripped) := by
              intro hcon
              exact hcon.2.2 (hid attempt translated hnet)
            simp only [if_neg hf]
            obtain ⟨stf, heq, hcf⟩ := ih (attempt + 1) st2
            exact ⟨stf, heq, hcf.trans hc2⟩
          | transient =>
            obtain ⟨stf, heq, hcf⟩ := ih (attempt + 1) st2
            exact ⟨stf, heq, hcf.trans hc2⟩
          | terminal => exact ⟨_, rfl, hc2⟩

/-- translate_text_direct under a service that only ever returns text
identical (after stripping) to the input, with no cache entry for the key:
it returns the input text unchanged and leaves the cache unchanged. -/
theorem translate_text_direct_identical (languages : String → Option String)
    (inProgress : Bool) (net : Nat → NetResponse) (st : EngineState)
    (text target_lang source_lang : String) (max_retries : Nat) (tc sc : String)
    (htc : languages target_lang = some tc)
    (hsc : (if source_lang = "Auto" then some "auto" else languages source_lang) = some sc)
    (hid : ∀ a t, net a = NetResponse.ok t → pyStrip t = pyStrip text)
    (hmiss : lookupA (cacheKey sc tc (pyStrip text)) st.translation_cache = none) :
    ∃ st1,
      translate_text_direct languages inProgress net st text target_lang source_lang
          max_retries
        = (st1, text) ∧ st1.translation_cache = st.translation_cache := by
  by_cases hws : pyStrip text = ""
  · exact ⟨st, by simp [translate_text_direct, hws], rfl⟩
  · obtain ⟨st1, heq, hcache⟩ :=
      translateAttempts_identical inProgress net (pyStrip text) hid (max_retries + 1) 0 st
    refine ⟨{ st1 with error_count := st1.error_count + 1 }, ?_, hcache⟩
    unfold translate_text_direct
    simp only [htc, hsc, hmiss, if_neg hws, heq]

/-- translate_subtitle under a service that only ever returns identical
text: the task reports success = false and the original text. -/
theorem translate_subtitle_identical (languages : String → Option String)
    (inProgress : Bool) (net : Nat → NetResponse)
    (subtitle_color format_var : String) (st : EngineState) (sub : Sub)
    (source_lang target_lang : String) (tc sc : String)
    (htc : languages target_lang = some tc)
    (hsc : (if source_lang = "Auto" then some "auto" else languages source_lang) = some sc)
    (hid : ∀ a t, net a = NetResponse.ok t → pyStrip t = pyStrip sub.text)
    (hmiss : lookupA (cacheKey sc tc (pyStrip sub.text)) st.translation_cache = none) :
    ∃ st1,
      translate_subtitle languages inProgress net subtitle_color format_var st sub
          source_lang target_lang
        = (st1, (sub.index, sub.text, false, sub.text))
        ∧ st1.translation_cache = st.translation_cache := by
  by_cases hp : inProgress = false
  · exact ⟨st, by simp [translate_subtitle, hp], rfl⟩
  · obtain ⟨st1, heq, hcache⟩ := translate_text_direct_identical languages inProgress net
      st sub.text target_lang source_lang 3 tc sc htc hsc hid hmiss
    refine ⟨st1, ?_, hcache⟩
    unfold translate_subtitle
    simp only [if_neg hp, heq]
    have hf : ¬ (sub.text ≠ "" ∧ pyStrip sub.text ≠ pyStrip sub.text) := by
      intro hcon
      exact hcon.2 rfl
    simp only [if_neg hf]

/-- Collecting one unsuccessful task result creates (or bumps) the failure
record for (output_path, index), counts the line as untranslated, and the
file is saved with the line text unchanged. -/
theorem collect_single_failure (output_path : String) (sub : Sub) (untr0 : FRMap)
    (fs : FileSystem) :
    process_file_parallel output_path [sub]
        [(true, Event.result sub.index sub.text false sub.text)] untr0 fs
      = (Outcome.done ([sub],
          setA (output_path, sub.index)
            ⟨sub.text, ((lookupA (output_path, sub.index) untr0).getD ⟨"", 0⟩).failure_count + 1⟩
            untr0, 1, 1),
        save_subtitles [sub] output_path fs) := by
  simp [process_file_parallel, collectEvents, reassemble, setA, lookupA, save_subtitles]

/-- C6: when the translation service only ever returns text identical
(after stripping) to the input, the line is marked failed:
translate_subtitle reports success = false with the original text (never a
success with unchanged text), and the collection loop of
process_file_parallel records a failure record for the line. -/
theorem C6_identical_text_marked_failed (languages : String → Option String)
    (net : Nat → NetResponse) (subtitle_color format_var : String)
    (st : EngineState) (sub : Sub) (source_lang target_lang output_path : String)
    (untr0 : FRMap) (fs : FileSystem) (tc sc : String)
    (htc : languages target_lang = some tc)
    (hsc : (if source_lang = "Auto" then some "auto" else languages source_lang) = some sc)
    (hid : ∀ a t, net a = NetResponse.ok t → pyStrip t = pyStrip sub.text)
    (hmiss : lookupA (cacheKey sc tc (pyStrip sub.text)) st.translation_cache = none) :
    (∃ st1,
      translate_subtitle languages true net subtitle_color format_var st sub
          source_lang target_lang
        = (st1, (sub.index, sub.text, false, sub.text)))
    ∧ (∃ c, 1 ≤ c ∧
        (process_file_parallel output_path [sub]
            [(true, Event.result sub.index sub.text false sub.text)] untr0 fs).1
          = Outcome.done ([sub], setA (output_path, sub.index) ⟨sub.text, c⟩ untr0, 1, 1)) := by
  obtain ⟨st1, heq, _⟩ := translate_subtitle_identical languages true net subtitle_color
    format_var st sub source_lang target_lang tc sc htc hsc hid hmiss
  refine ⟨⟨st1, heq⟩,
    ⟨((lookupA (output_path, sub.index) untr0).getD ⟨"", 0⟩).failure_count + 1,
      Nat.le_add_left 1 _, ?_⟩⟩
  rw [collect_single_failure]

/-- Witness for C6: a concrete service that always answers with the input
text; the line is reported failed and a failure record with count 1 shows
up. -/
theorem C6_identical_text_marked_failed_witness :
    (∃ st1,
      translate_subtitle (fun n => if n = "Spanish" then some "es" else none) true
          (fun _ => NetResponse.ok "hola") "" "" ⟨[], 0, 0, 0, ["e1"], 0⟩ ⟨1, "hola"⟩
          "Auto" "Spanish"
        = (st1, (1, "hola", false, "hola")))
    ∧ (∃ c, 1 ≤ c ∧
        (process_file_parallel "out.srt" [⟨1, "hola"⟩]
            [(true, Event.result 1 "hola" false "hola")] [] []).1
          = Outcome.done ([⟨1, "hola"⟩], setA ("out.srt", 1) ⟨"hola", c⟩ [], 1, 1)) := by
  exact C6_identical_text_marked_failed
    (fun n => if n = "Spanish" then some "es" else none)
    (fun _ => NetResponse.ok "hola") "" "" ⟨[], 0, 0, 0, ["e1"], 0⟩ ⟨1, "hola"⟩
    "Auto" "Spanish" "out.srt" [] [] "es" "auto" (by decide) (by decide)
    (by intro a t h; cases h; rfl) (by simp [lookupA])

/-! ### C5: empty or whitespace-only input

The claim says such a line is reported trivially successful with no failure
record.  In the code, translate_text_direct does return the text unchanged
(line 1615-1616), but translate_subtitle then compares stripped translated
text with stripped original (line 1758), which are equal, so it returns
success = false, and the collection loop of process_file_parallel therefore
creates a failure record and schedules the line for retry. -/

/-- Counterexample to C5 at the concrete whitespace-only line " ": the
task result carries success = false (the claim asserts it is reported
successful), and collecting it creates the failure record ((out.srt, 1),
count 1) (the claim asserts no record is created). -/
theorem C5_whitespace_counterexample :
    translate_subtitle (fun n => if n = "Spanish" then some "es" else none) true
        (fun _ => NetResponse.ok "x") "" "" ⟨[], 0, 0, 0, ["e1"], 0⟩ ⟨1, " "⟩
        "Auto" "Spanish"
      = (⟨[], 0, 0, 0, ["e1"], 0⟩, (1, " ", false, " "))
    ∧ process_file_parallel "out.srt" [⟨1, " "⟩]
        [(true, Event.result 1 " " false " ")] [] []
      = (Outcome.done ([⟨1, " "⟩], [(("out.srt", 1), ⟨" ", 1⟩)], 1, 1),
        [("out.srt", [⟨1, " "⟩])]) := by
  constructor
  · rfl
  · rfl

/-- C5 as amended: for every line whose text is empty or whitespace-only,
translate_text_direct returns the text unchanged with the engine state
untouched, but translate_subtitle reports the line as unsuccessful
(success = false with the original text), and the collection loop creates a
failure record for it, scheduling it for retry. -/
theorem C5_whitespace_amended (languages : String → Option String) (inProgress : Bool)
    (net : Nat → NetResponse) (subtitle_color format_var : String)
    (st : EngineState) (sub : Sub) (source_lang target_lang output_path : String)
    (untr0 : FRMap) (fs : FileSystem)
    (hws : pyStrip sub.text = "") :
    translate_text_direct languages inProgress net st sub.text target_lang source_lang 3
      = (st, sub.text)
    ∧ translate_subtitle languages inProgress net subtitle_color format_var st sub
        source_lang target_lang
      = (st, (sub.index, sub.text, false, sub.text))
    ∧ process_file_parallel output_path [sub]
        [(true, Event.result sub.index sub.text false sub.text)] untr0 fs
      = (Outcome.done ([sub],
          setA (output_path, sub.index)
            ⟨sub.text, ((lookupA (output_path, sub.index) untr0).getD ⟨"", 0⟩).failure_count + 1⟩
            untr0, 1, 1),
        save_subtitles [sub] output_path fs) := by
  have h1 : translate_text_direct languages inProgress net st sub.text target_lang
      source_lang 3 = (st, sub.text) := by
    simp [translate_text_direct, hws]
  refine ⟨h1, ?_, collect_single_failure output_path sub untr0 fs⟩
  by_cases hp : inProgress = false
  · simp [translate_subtitle, hp]
  · unfold translate_subtitle
    simp only [if_neg hp, h1]
    have hf : ¬ (sub.text ≠ "" ∧ pyStrip sub.text ≠ pyStrip sub.text) := by
      intro hcon
      exact hcon.2 rfl
    simp only [if_neg hf]

/-- Witness for the amended C5 at the concrete line " ". -/
theorem C5_whitespace_amended_witness :
    translate_text_direct (fun n => if n = "Spanish" then some "es" else none) true
        (fun _ => NetResponse.ok "x") ⟨[], 0, 0, 0, ["e1"], 0⟩ " " "Spanish" "Auto" 3
      = (⟨[], 0, 0, 0, ["e1"], 0⟩, " ")
    ∧ translate_subtitle (fun n => if n = "Spanish" then some "es" else none) true
        (fun _ => NetResponse.ok "x") "" "" ⟨[], 0, 0, 0, ["e1"], 0⟩ ⟨1, " "⟩
        "Auto" "Spanish"
      = (⟨[], 0, 0, 0, ["e1"], 0⟩, (1, " ", false, " "))
    ∧ process_file_parallel "out2.srt" [⟨1, " "⟩]
        [(true, Event.result 1 " " false " ")] [] []
      = (Outcome.done ([⟨1, " "⟩],
          setA ("out2.srt", 1)
            ⟨" ", ((lookupA ("out2.srt", 1) ([] : FRMap)).getD ⟨"", 0⟩).failure_count + 1⟩
            [], 1, 1),
        save_subtitles [⟨1, " "⟩] "out2.srt" []) := by
  exact C5_whitespace_amended (fun n => if n = "Spanish" then some "es" else none) true
    (fun _ => NetResponse.ok "x") "" "" ⟨[], 0, 0, 0, ["e1"], 0⟩ ⟨1, " "⟩
    "Auto" "Spanish" "out2.srt" [] [] (by decide)

/-! ### C2: reassembly is by line index, independent of completion order -/

/-- The contents of the results dict after collecting the given events. -/
def resultsOf (evs : List (Bool × Event)) (r : List (Nat × String)) :
    List (Nat × String) :=
  evs.foldl
    (fun acc e =>
      match e with
      | (_, Event.result i t _ _) => setA i t acc
      | _ => acc) r

/-- The line indices carried by the normal result events of a stream. -/
def keysOf (evs : List (Bool × Event)) : List Nat :=
  evs.filterMap
    (fun e =>
      match e with
      | (_, Event.result i _ _ _) => some i
      | _ => none)

theorem collectEvents_results (output_path : String) (subs : List Sub) :
    ∀ (evs : List (Bool × Event)) (s0 : CollectSt),
      (∀ e ∈ evs, ∃ i t su og, e = (true, Event.result i t su og)) →
      ∃ s1, collectEvents output_path subs evs s0 = Outcome.done s1
        ∧ s1.results = resultsOf evs s0.results := by
  intro evs
  induction evs with
  | nil => intro s0 _; exact ⟨s0, rfl, rfl⟩
  | cons e rest ih =>
    intro s0 hshape
    obtain ⟨i, t, su, og, he⟩ := hshape e (List.mem_cons_self _ _)
    subst he
    have hrest : ∀ e ∈ rest, ∃ i t su og, e = (true, Event.result i t su og) :=
      fun e he => hshape e (List.mem_cons_of_mem _ he)
    show ∃ s1, collectEvents output_path subs ((true, Event.result i t su og) :: rest) s0
      = Outcome.done s1 ∧ s1.results = resultsOf ((true, Event.result i t su og) :: rest)
        s0.results
    unfold collectEvents
    rw [if_neg (by decide : ¬ (true = false))]
    simp only
    cases su with
    | false =>
      rw [if_pos rfl]
      obtain ⟨s1, heq, hres⟩ := ih _ hrest
      exact ⟨s1, heq, by simpa [resultsOf] using hres⟩
    | true =>
      rw [if_neg (by decide : ¬ (true = false))]
      obtain ⟨s1, heq, hres⟩ := ih _ hrest
      exact ⟨s1, heq, by simpa [resultsOf] using hres⟩

theorem keysOf_cons_result (flag : Bool) (j : Nat) (tj : String) (su : Bool)
    (og : String) (rest : List (Bool × Event)) :
    keysOf ((flag, Event.result j tj su og) :: rest) = j :: keysOf rest := by
  simp [keysOf]

theorem keysOf_cons_cancelled (flag : Bool) (rest : List (Bool × Event)) :
    keysOf ((flag, Event.cancelledFut) :: rest) = keysOf rest := by
  simp [keysOf]

theorem keysOf_cons_raised (flag : Bool) (j : Nat) (rest : List (Bool × Event)) :
    keysOf ((flag, Event.raised j) :: rest) = keysOf rest := by
  simp [keysOf]

theorem resultsOf_not_mem (i : Nat) :
    ∀ (evs : List (Bool × Event)) (r : List (Nat × String)),
      i ∉ keysOf evs → lookupA i (resultsOf evs r) = lookupA i r := by
  intro evs
  induction evs with
  | nil => intro r _; rfl
  | cons e rest ih =>
    intro r hmem
    cases e with
    | mk flag ev =>
      cases ev with
      | result j tj su og =>
        rw [keysOf_cons_result, List.mem_cons] at hmem
        push_neg at hmem
        show lookupA i (resultsOf rest (setA j tj r)) = lookupA i r
        rw [ih _ hmem.2, lookupA_setA_ne _ _ _ _ hmem.1]
      | cancelledFut =>
        rw [keysOf_cons_cancelled] at hmem
        exact ih _ hmem
      | raised j =>
        rw [keysOf_cons_raised] at hmem
        exact ih _ hmem

theorem resultsOf_lookup (i : Nat) (t : String) :
    ∀ (evs : List (Bool × Event)) (r : List (Nat × String)) (su : Bool) (og : String),
      (keysOf evs).Nodup → (true, Event.result i t su og) ∈ evs →
      lookupA i (resultsOf evs r) = some t := by
  intro evs
  induction evs with
  | nil => intro r su og _ hmem; simp at hmem
  | cons e rest ih =>
    intro r su og hnodup hmem
    rcases List.mem_cons.mp hmem with he | he
    · subst he
      rw [keysOf_cons_result] at hnodup
      have hnotin : i ∉ keysOf rest := (List.nodup_cons.mp hnodup).1
      show lookupA i (resultsOf rest (setA i t r)) = some t
      rw [resultsOf_not_mem i rest _ hnotin, lookupA_setA_self]
    · cases e with
      | mk flag ev =>
        cases ev with
        | result j tj su2 og2 =>
          rw [keysOf_cons_result] at hnodup
          exact ih _ su og (List.nodup_cons.mp hnodup).2 he
        | cancelledFut =>
          rw [keysOf_cons_cancelled] at hnodup
          exact ih _ su og hnodup he
        | raised j =>
          rw [keysOf_cons_raised] at hnodup
          exact ih _ su og hnodup he

/-- C2: the file saved by process_file_parallel is the input line list in
its original order, with the line of index i carrying the result collected
for index i, for every stream of completed futures that is a permutation
(any completion order) of one result per line. -/
theorem C2_reassembly_by_index (output_path : String) (subs : List Sub)
    (f : Nat → String) (su : Nat → Bool) (og : Nat → String)
    (evs : List (Bool × Event)) (untr0 : FRMap) (fs : FileSystem)
    (hnodup : (subs.map Sub.index).Nodup)
    (hperm : evs.Perm (subs.map
      (fun s => (true, Event.result s.index (f s.index) (su s.index) (og s.index))))) :
    lookupA output_path (process_file_parallel output_path subs evs untr0 fs).2
      = some (subs.map (fun s => { s with text := f s.index })) := by
  have hshape : ∀ e ∈ evs, ∃ i t s og, e = (true, Event.result i t s og) := by
    intro e he
    have := hperm.mem_iff.mp he
    obtain ⟨s, _, hs⟩ := List.mem_map.mp this
    exact ⟨s.index, f s.index, su s.index, og s.index, hs.symm⟩
  have hkeys : keysOf evs = keysOf evs := rfl
  have hkeysPerm : (keysOf evs).Perm (subs.map Sub.index) := by
    have h1 := hperm.filterMap
      (fun e : Bool × Event =>
        match e with
        | (_, Event.result i _ _ _) => some i
        | _ => none)
    have h2 : List.filterMap
        (fun e : Bool × Event =>
          match e with
          | (_, Event.result i _ _ _) => some i
          | _ => none)
        (subs.map (fun s => (true, Event.result s.index (f s.index) (su s.index)
          (og s.index))))
        = subs.map Sub.index := by
      rw [List.filterMap_map]
      exact List.filterMap_eq_map _ ▸ rfl
    exact h2 ▸ h1
  have hkeysNodup : (keysOf evs).Nodup := hkeysPerm.nodup_iff.mpr hnodup
  by_cases hempty : subs.length = 0
  · have hsubs : subs = [] := List.length_eq_zero.mp hempty
    subst hsubs
    simp [process_file_parallel, save_subtitles, lookupA_setA_self]
  · obtain ⟨s1, heq, hres⟩ := collectEvents_results output_path subs evs ⟨[], untr0, 0, 0⟩
      hshape
    unfold process_file_parallel
    rw [if_neg hempty, heq]
    simp only [save_subtitles]
    rw [lookupA_setA_self]
    congr 1
    unfold reassemble
    apply List.map_congr_left
    intro s hs
    have hmem : (true, Event.result s.index (f s.index) (su s.index) (og s.index)) ∈ evs :=
      hperm.mem_iff.mpr (List.mem_map.mpr ⟨s, hs, rfl⟩)
    have hlook : lookupA s.index s1.results = some (f s.index) := by
      rw [hres]
      exact resultsOf_lookup s.index (f s.index) evs [] (su s.index) (og s.index)
        hkeysNodup hmem
    rw [hlook]

/-- Witness for C2: the spec example, line indices 1, 2, 3 completing in
the order 3, 1, 2 are saved as 1, 2, 3 with their own results. -/
theorem C2_reassembly_by_index_witness :
    lookupA "out.srt" (process_file_parallel "out.srt"
        [⟨1, "a"⟩, ⟨2, "b"⟩, ⟨3, "c"⟩]
        [(true, Event.result 3 "C" true "c"), (true, Event.result 1 "A" true "a"),
          (true, Event.result 2 "B" true "b")] [] []).2
      = some [⟨1, "A"⟩, ⟨2, "B"⟩, ⟨3, "C"⟩] := by
  have h := C2_reassembly_by_index "out.srt" [⟨1, "a"⟩, ⟨2, "b"⟩, ⟨3, "c"⟩]
    (fun i => if i = 1 then "A" else if i = 2 then "B" else "C")
    (fun _ => true)
    (fun i => if i = 1 then "a" else if i = 2 then "b" else "c")
    [(true, Event.result 3 "C" true "c"), (true, Event.result 1 "A" true "a"),
      (true, Event.result 2 "B" true "b")] [] []
    (by decide) (by decide)
  exact h.trans (by decide)

/-! ### C7: cancellation during collection never finalizes the file -/

theorem collectEvents_cancelled (output_path : String) (subs : List Sub) :
    ∀ (evs : List (Bool × Event)) (s0 : CollectSt),
      (∃ e ∈ evs, e.1 = false) →
      collectEvents output_path subs evs s0 = Outcome.cancelled := by
  intro evs
  induction evs with
  | nil => intro s0 h; simp at h
  | cons e rest ih =>
    intro s0 hfalse
    cases e with
    | mk flag ev =>
      cases flag with
      | false =>
        cases ev <;> simp [collectEvents]
      | true =>
        have hrest : ∃ e ∈ rest, e.1 = false := by
          rcases hfalse with ⟨e1, hmem, hf⟩
          rcases List.mem_cons.mp hmem with he | he
          · rw [he] at hf; simp at hf
          · exact ⟨e1, he, hf⟩
        show collectEvents output_path subs ((true, ev) :: rest) s0 = Outcome.cancelled
        unfold collectEvents
        rw [if_neg (by decide : ¬ (true = false))]
        cases ev with
        | result idx text success original =>
          simp only
          cases success with
          | false => rw [if_pos rfl]; exact ih _ hrest
          | true => rw [if_neg (by decide : ¬ (true = false))]; exact ih _ hrest
        | cancelledFut => exact ih _ hrest
        | raised idx => exact ih _ hrest

/-- C7: if the cancellation flag is observed false at any point of the
result-collection loop, process_file_parallel ends in the cancellation
outcome (a constructor distinct from normal completion, modelling the
InterruptedError that the caller reports as cancelled rather than as an
error) before the save step, and the file system is returned unchanged: the
output file is neither created nor overwritten. -/
theorem C7_cancel_no_write (output_path : String) (subs : List Sub)
    (evs : List (Bool × Event)) (untr0 : FRMap) (fs : FileSystem)
    (hne : subs ≠ [])
    (hcancel : ∃ e ∈ evs, e.1 = false) :
    process_file_parallel output_path subs evs untr0 fs = (Outcome.cancelled, fs) := by
  unfold process_file_parallel
  rw [if_neg (fun h => hne (List.length_eq_zero.mp h)),
    collectEvents_cancelled output_path subs evs _ hcancel]

/-- Witness for C7: a concrete two-line file whose second completion
observes the flag false; the outcome is cancelled and the file system (with
a pre-existing unrelated file) is untouched. -/
theorem C7_cancel_no_write_witness :
    process_file_parallel "out.srt" [⟨1, "a"⟩, ⟨2, "b"⟩]
        [(true, Event.result 1 "A" true "a"), (false, Event.result 2 "B" true "b")]
        [] [("other.srt", [⟨1, "x"⟩])]
      = (Outcome.cancelled, [("other.srt", [⟨1, "x"⟩])]) := by
  exact C7_cancel_no_write "out.srt" [⟨1, "a"⟩, ⟨2, "b"⟩]
    [(true, Event.result 1 "A" true "a"), (false, Event.result 2 "B" true "b")]
    [] [("other.srt", [⟨1, "x"⟩])] (by decide)
    ⟨(false, Event.result 2 "B" true "b"), by decide, rfl⟩

/-! ### Branch equations for the per-record retry loop -/

theorem processItems_nil (tm : TM) (tgt src color fmtv : String) (s : PassSt) :
    processItems true tm tgt src color fmtv [] s = (s, false) := rfl

theorem processItems_cons_cap (tm : TM) (tgt src color fmtv : String)
    (key : Key) (details : FR) (rest : List (Key × FR)) (s : PassSt)
    (hcap : MAX_FAILURES_PER_LINE ≤ details.failure_count) :
    processItems true tm tgt src color fmtv ((key, details) :: rest) s
      = processItems true tm tgt src color fmtv rest
          { s with nextUntr := setA key details s.nextUntr } := by
  simp only [processItems, if_neg (by decide : ¬ (true = false)), if_pos hcap]

theorem processItems_cons_missing (tm : TM) (tgt src color fmtv : String)
    (key : Key) (details : FR) (rest : List (Key × FR)) (s : PassSt)
    (hcap : ¬ MAX_FAILURES_PER_LINE ≤ details.failure_count)
    (hfind : s.subs.find? (fun x => x.index = key.2) = none) :
    processItems true tm tgt src color fmtv ((key, details) :: rest) s
      = processItems true tm tgt src color fmtv rest
          { s with
            nextUntr := setA key ⟨details.original_text, MAX_FAILURES_PER_LINE⟩ s.nextUntr } := by
  simp only [processItems, if_neg (by decide : ¬ (true = false)), if_neg hcap, hfind]

theorem processItems_cons_drop (tm : TM) (tgt src color fmtv : String)
    (key : Key) (details : FR) (rest : List (Key × FR)) (s : PassSt) (sub : Sub)
    (hcap : ¬ MAX_FAILURES_PER_LINE ≤ details.failure_count)
    (hfind : s.subs.find? (fun x => x.index = key.2) = some sub)
    (hguard : pyStrip sub.text ≠ pyStrip details.original_text) :
    processItems true tm tgt src color fmtv ((key, details) :: rest) s
      = processItems true tm tgt src color fmtv rest s := by
  simp only [processItems, if_neg (by decide : ¬ (true = false)), if_neg hcap, hfind]
  rw [if_pos hguard]

theorem processItems_cons_success (tm : TM) (tgt src color fmtv : String)
    (key : Key) (details : FR) (rest : List (Key × FR)) (s : PassSt) (sub : Sub)
    (hcap : ¬ MAX_FAILURES_PER_LINE ≤ details.failure_count)
    (hfind : s.subs.find? (fun x => x.index = key.2) = some sub)
    (hguard : ¬ pyStrip sub.text ≠ pyStrip details.original_text)
    (hsucc : pyStrip (tm s.callNo s.engine details.original_text tgt src).2 ≠ ""
      ∧ pyStrip (tm s.callNo s.engine details.original_text tgt src).2
        ≠ pyStrip details.original_text) :
    processItems true tm tgt src color fmtv ((key, details) :: rest) s
      = processItems true tm tgt src color fmtv rest
          { s with
            engine := (tm s.callNo s.engine details.original_text tgt src).1,
            callNo := s.callNo + 1,
            attempted := s.attempted ++ [key],
            successes := s.successes + 1,
            modified := true,
            subs := updateFirst key.2
              (style_text color fmtv (tm s.callNo s.engine details.original_text tgt src).2)
              s.subs,
            successKeys := s.successKeys ++ [key] } := by
  simp only [processItems, if_neg (by decide : ¬ (true = false)), if_neg hcap, hfind]
  rw [if_neg hguard, if_pos hsucc]

theorem processItems_cons_fail (tm : TM) (tgt src color fmtv : String)
    (key : Key) (details : FR) (rest : List (Key × FR)) (s : PassSt) (sub : Sub)
    (hcap : ¬ MAX_FAILURES_PER_LINE ≤ details.failure_count)
    (hfind : s.subs.find? (fun x => x.index = key.2) = some sub)
    (hguard : ¬ pyStrip sub.text ≠ pyStrip details.original_text)
    (hsucc : ¬ (pyStrip (tm s.callNo s.engine details.original_text tgt src).2 ≠ ""
      ∧ pyStrip (tm s.callNo s.engine details.original_text tgt src).2
        ≠ pyStrip details.original_text)) :
    processItems true tm tgt src color fmtv ((key, details) :: rest) s
      = processItems true tm tgt src color fmtv rest
          { s with
            engine := (tm s.callNo s.engine details.original_text tgt src).1,
            callNo := s.callNo + 1,
            attempted := s.attempted ++ [key],
            nextUntr :=
              setA key ⟨details.original_text, details.failure_count + 1⟩ s.nextUntr } := by
  simp only [processItems, if_neg (by decide : ¬ (true = false)), if_neg hcap, hfind]
  rw [if_neg hguard, if_neg hsucc]

/-- The effect of one iteration of the per-record retry loop on the pass
state, when the cancellation flag stays true.  This is the loop body of
processItems as a step function, so that the whole loop is its fold. -/
def itemStep (tm : TM) (tgt src color fmtv : String) (s : PassSt) (kd : Key × FR) :
    PassSt :=
  if MAX_FAILURES_PER_LINE ≤ kd.2.failure_count then
    { s with nextUntr := setA kd.1 kd.2 s.nextUntr }
  else
    match s.subs.find? (fun x => x.index = kd.1.2) with
    | none =>
      { s with
        nextUntr := setA kd.1 ⟨kd.2.original_text, MAX_FAILURES_PER_LINE⟩ s.nextUntr }
    | some sub =>
      if pyStrip sub.text ≠ pyStrip kd.2.original_text then s
      else if pyStrip (tm s.callNo s.engine kd.2.original_text tgt src).2 ≠ ""
          ∧ pyStrip (tm s.callNo s.engine kd.2.original_text tgt src).2
            ≠ pyStrip kd.2.original_text then
        { s with
          engine := (tm s.callNo s.engine kd.2.original_text tgt src).1,
          callNo := s.callNo + 1,
          attempted := s.attempted ++ [kd.1],
          successes := s.successes + 1,
          modified := true,
          subs := updateFirst kd.1.2
            (style_text color fmtv (tm s.callNo s.engine kd.2.original_text tgt src).2)
            s.subs,
          successKeys := s.successKeys ++ [kd.1] }
      else
        { s with
          engine := (tm s.callNo s.engine kd.2.original_text tgt src).1,
          callNo := s.callNo + 1,
          attempted := s.attempted ++ [kd.1],
          nextUntr :=
            setA kd.1 ⟨kd.2.original_text, kd.2.failure_count + 1⟩ s.nextUntr }

theorem processItems_cons_step (tm : TM) (tgt src color fmtv : String)
    (kd : Key × FR) (rest : List (Key × FR)) (s : PassSt) :
    processItems true tm tgt src color fmtv (kd :: rest) s
      = processItems true tm tgt src color fmtv rest (itemStep tm tgt src color fmtv s kd) := by
  cases kd with
  | mk key details =>
    by_cases hcap : MAX_FAILURES_PER_LINE ≤ details.failure_count
    · rw [processItems_cons_cap tm tgt src color fmtv key details rest s hcap]
      congr 1
      simp only [itemStep, if_pos hcap]
    · cases hfind : s.subs.find? (fun x => x.index = key.2) with
      | none =>
        rw [processItems_cons_missing tm tgt src color fmtv key details rest s hcap hfind]
        congr 1
        simp only [itemStep, if_neg hcap, hfind]
      | some sub =>
        by_cases hguard : pyStrip sub.text ≠ pyStrip details.original_text
        · rw [processItems_cons_drop tm tgt src color fmtv key details rest s sub hcap
            hfind hguard]
          congr 1
          simp only [itemStep, if_neg hcap, hfind]
          rw [if_pos hguard]
        · by_cases hsucc : pyStrip (tm s.callNo s.engine details.original_text tgt src).2
              ≠ "" ∧ pyStrip (tm s.callNo s.engine details.original_text tgt src).2
              ≠ pyStrip details.original_text
          · rw [processItems_cons_success tm tgt src color fmtv key details rest s sub hcap
              hfind hguard hsucc]
            congr 1
            simp only [itemStep, if_neg hcap, hfind]
            rw [if_neg hguard, if_pos hsucc]
          · rw [processItems_cons_fail tm tgt src color fmtv key details rest s sub hcap
              hfind hguard hsucc]
            congr 1
            simp only [itemStep, if_neg hcap, hfind]
            rw [if_neg hguard, if_neg hsucc]

/-- With the cancellation flag true, the per-record loop is the fold of its
step function and never raises. -/
theorem processItems_true_foldl (tm : TM) (tgt src color fmtv : String) :
    ∀ (items : List (Key × FR)) (s : PassSt),
      processItems true tm tgt src color fmtv items s
        = (items.foldl (itemStep tm tgt src color fmtv) s, false) := by
  intro items
  induction items with
  | nil => intro s; rfl
  | cons kd rest ih =>
    intro s
    rw [processItems_cons_step, ih, List.foldl_cons]

/-- Exhaustive description of the five branches of one retry-loop
iteration: record at the cap carried unchanged, record for a vanished line
capped, record dropped by the idempotence guard, successful retranslation,
failed attempt. -/
theorem itemStep_shape (tm : TM) (tgt src color fmtv : String) (s : PassSt)
    (kd : Key × FR) :
    (MAX_FAILURES_PER_LINE ≤ kd.2.failure_count
      ∧ itemStep tm tgt src color fmtv s kd
        = { s with nextUntr := setA kd.1 kd.2 s.nextUntr })
    ∨ (¬ MAX_FAILURES_PER_LINE ≤ kd.2.failure_count
      ∧ itemStep tm tgt src color fmtv s kd
        = { s with
            nextUntr := setA kd.1 ⟨kd.2.original_text, MAX_FAILURES_PER_LINE⟩ s.nextUntr })
    ∨ (¬ MAX_FAILURES_PER_LINE ≤ kd.2.failure_count
      ∧ itemStep tm tgt src color fmtv s kd = s)
    ∨ (¬ MAX_FAILURES_PER_LINE ≤ kd.2.failure_count
      ∧ ∃ e sb, itemStep tm tgt src color fmtv s kd
        = { s with
            engine := e, callNo := s.callNo + 1, attempted := s.attempted ++ [kd.1],
            successes := s.successes + 1, modified := true, subs := sb,
            successKeys := s.successKeys ++ [kd.1] })
    ∨ (¬ MAX_FAILURES_PER_LINE ≤ kd.2.failure_count
      ∧ ∃ e, itemStep tm tgt src color fmtv s kd
        = { s with
            engine := e, callNo := s.callNo + 1, attempted := s.attempted ++ [kd.1],
            nextUntr :=
              setA kd.1 ⟨kd.2.original_text, kd.2.failure_count + 1⟩ s.nextUntr }) := by
  by_cases hcap : MAX_FAILURES_PER_LINE ≤ kd.2.failure_count
  · exact Or.inl ⟨hcap, by simp only [itemStep, if_pos hcap]⟩
  · cases hfind : s.subs.find? (fun x => x.index = kd.1.2) with
    | none =>
      refine Or.inr (Or.inl ⟨hcap, ?_⟩)
      simp only [itemStep, if_neg hcap, hfind]
    | some sub =>
      by_cases hguard : pyStrip sub.text ≠ pyStrip kd.2.original_text
      · refine Or.inr (Or.inr (Or.inl ⟨hcap, ?_⟩))
        simp only [itemStep, if_neg hcap, hfind]
        rw [if_pos hguard]
      · by_cases hsucc : pyStrip (tm s.callNo s.engine kd.2.original_text tgt src).2 ≠ ""
            ∧ pyStrip (tm s.callNo s.engine kd.2.original_text tgt src).2
              ≠ pyStrip kd.2.original_text
        · refine Or.inr (Or.inr (Or.inr (Or.inl ⟨hcap,
            ⟨(tm s.callNo s.engine kd.2.original_text tgt src).1,
              updateFirst kd.1.2
                (style_text color fmtv (tm s.callNo s.engine kd.2.original_text tgt src).2)
                s.subs, ?_⟩⟩)))
          simp only [itemStep, if_neg hcap, hfind]
          rw [if_neg hguard, if_pos hsucc]
        · refine Or.inr (Or.inr (Or.inr (Or.inr ⟨hcap,
            ⟨(tm s.callNo s.engine kd.2.original_text tgt src).1, ?_⟩⟩)))
          simp only [itemStep, if_neg hcap, hfind]
          rw [if_neg hguard, if_neg hsucc]

theorem itemStep_successKeys_mono (tm : TM) (tgt src color fmtv : String) (s : PassSt)
    (kd : Key × FR) (k : Key) (hk : k ∈ s.successKeys) :
    k ∈ (itemStep tm tgt src color fmtv s kd).successKeys := by
  rcases itemStep_shape tm tgt src color fmtv s kd with ⟨_, h⟩ | ⟨_, h⟩ | ⟨_, h⟩
    | ⟨_, e, sb, h⟩ | ⟨_, e, h⟩ <;> rw [h] <;> simp [hk]

theorem itemStep_successKeys_from (tm : TM) (tgt src color fmtv : String) (s : PassSt)
    (kd : Key × FR) (k : Key)
    (hk : k ∈ (itemStep tm tgt src color fmtv s kd).successKeys) :
    k ∈ s.successKeys ∨ k = kd.1 := by
  rcases itemStep_shape tm tgt src color fmtv s kd with ⟨_, h⟩ | ⟨_, h⟩ | ⟨_, h⟩
    | ⟨_, e, sb, h⟩ | ⟨_, e, h⟩ <;> rw [h] at hk <;> (try simp at hk) <;> tauto

theorem itemStep_modified_from (tm : TM) (tgt src color fmtv : String) (s : PassSt)
    (kd : Key × FR)
    (h : (itemStep tm tgt src color fmtv s kd).modified = true) :
    s.modified = true ∨ kd.1 ∈ (itemStep tm tgt src color fmtv s kd).successKeys := by
  rcases itemStep_shape tm tgt src color fmtv s kd with ⟨_, heq⟩ | ⟨_, heq⟩ | ⟨_, heq⟩
    | ⟨_, e, sb, heq⟩ | ⟨_, e, heq⟩ <;> rw [heq] at h ⊢ <;> (try simp at h ⊢) <;> tauto

theorem foldl_successKeys_mono (tm : TM) (tgt src color fmtv : String) :
    ∀ (items : List (Key × FR)) (s : PassSt) (k : Key), k ∈ s.successKeys →
      k ∈ (items.foldl (itemStep tm tgt src color fmtv) s).successKeys := by
  intro items
  induction items with
  | nil => intro s k hk; exact hk
  | cons kd rest ih =>
    intro s k hk
    exact ih _ k (itemStep_successKeys_mono tm tgt src color fmtv s kd k hk)

theorem foldl_successKeys_from (tm : TM) (tgt src color fmtv : String) :
    ∀ (items : List (Key × FR)) (s : PassSt) (k : Key),
      k ∈ (items.foldl (itemStep tm tgt src color fmtv) s).successKeys →
      k ∈ s.successKeys ∨ ∃ d, (k, d) ∈ items := by
  intro items
  induction items with
  | nil => intro s k hk; exact Or.inl hk
  | cons kd rest ih =>
    intro s k hk
    rcases ih _ k hk with h | ⟨d, hd⟩
    · rcases itemStep_successKeys_from tm tgt src color fmtv s kd k h with h1 | h1
      · exact Or.inl h1
      · exact Or.inr ⟨kd.2, by rw [h1]; exact List.mem_cons_self _ _⟩
    · exact Or.inr ⟨d, List.mem_cons_of_mem _ hd⟩

theorem foldl_modified_from (tm : TM) (tgt src color fmtv : String) :
    ∀ (items : List (Key × FR)) (s : PassSt),
      (items.foldl (itemStep tm tgt src color fmtv) s).modified = true →
      s.modified = true
        ∨ ∃ kd ∈ items, kd.1 ∈ (items.foldl (itemStep tm tgt src color fmtv) s).successKeys := by
  intro items
  induction items with
  | nil => intro s h; exact Or.inl h
  | cons kd rest ih =>
    intro s h
    rcases ih _ h with h1 | ⟨kd', hkd', hmem⟩
    · rcases itemStep_modified_from tm tgt src color fmtv s kd h1 with h2 | h2
      · exact Or.inl h2
      · exact Or.inr ⟨kd, List.mem_cons_self _ _,
          foldl_successKeys_mono tm tgt src color fmtv rest _ kd.1 h2⟩
    · exact Or.inr ⟨kd', List.mem_cons_of_mem _ hkd', hmem⟩

theorem groupItems_path {items : FRMap} {p : String} {kd : Key × FR}
    (h : kd ∈ groupItems items p) : kd.1.1 = p := by
  have := List.mem_filter.mp h
  exact of_decide_eq_true this.2

theorem processOneFile_true_snd (tm : TM) (tgt src color fmtv : String)
    (acc : PassAcc) (p : String) (items : FRMap) :
    (processOneFile true tm tgt src color fmtv acc p items).2 = false := by
  unfold processOneFile
  cases hfs : lookupA p acc.fs with
  | none => rfl
  | some subs =>
    dsimp only
    rw [processItems_true_foldl]
    rfl

/-- The initial per-file pass state built by processOneFile from the pass
accumulator and the opened file. -/
def fileStart (acc : PassAcc) (subs : List Sub) : PassSt :=
  { engine := acc.engine, callNo := acc.callNo, subs := subs, modified := false,
    nextUntr := acc.nextUntr, successes := acc.successes, attempted := acc.attempted,
    successKeys := acc.successKeys }

theorem processOneFile_true_missing (tm : TM) (tgt src color fmtv : String)
    (acc : PassAcc) (p : String) (items : FRMap)
    (hfs : lookupA p acc.fs = none) :
    processOneFile true tm tgt src color fmtv acc p items
      = ({ acc with nextUntr := capAll items acc.nextUntr }, false) := by
  unfold processOneFile
  rw [hfs]

theorem processOneFile_true_present (tm : TM) (tgt src color fmtv : String)
    (acc : PassAcc) (p : String) (items : FRMap) (subs : List Sub)
    (hfs : lookupA p acc.fs = some subs) :
    processOneFile true tm tgt src color fmtv acc p items
      = ({ engine := (items.foldl (itemStep tm tgt src color fmtv) (fileStart acc subs)).engine,
           callNo := (items.foldl (itemStep tm tgt src color fmtv) (fileStart acc subs)).callNo,
           fs := if (items.foldl (itemStep tm tgt src color fmtv) (fileStart acc subs)).modified
             then save_subtitles
               (items.foldl (itemStep tm tgt src color fmtv) (fileStart acc subs)).subs p acc.fs
             else acc.fs,
           nextUntr := (items.foldl (itemStep tm tgt src color fmtv) (fileStart acc subs)).nextUntr,
           successes := (items.foldl (itemStep tm tgt src color fmtv) (fileStart acc subs)).successes,
           attempted := (items.foldl (itemStep tm tgt src color fmtv) (fileStart acc subs)).attempted,
           successKeys := (items.foldl (itemStep tm tgt src color fmtv) (fileStart acc subs)).successKeys },
         false) := by
  unfold processOneFile
  rw [hfs]
  dsimp only
  rw [processItems_true_foldl]
  rfl

theorem processOneFile_fs_ne (tm : TM) (tgt src color fmtv : String)
    (acc : PassAcc) (p q : String) (items : FRMap) (hq : q ≠ p) :
    lookupA q (processOneFile true tm tgt src color fmtv acc p items).1.fs
      = lookupA q acc.fs := by
  cases hfs : lookupA p acc.fs with
  | none => rw [processOneFile_true_missing tm tgt src color fmtv acc p items hfs]
  | some subs =>
    rw [processOneFile_true_present tm tgt src color fmtv acc p items subs hfs]
    dsimp only
    by_cases hmod : (items.foldl (itemStep tm tgt src color fmtv) (fileStart acc subs)).modified
    · rw [if_pos hmod]
      exact lookupA_setA_ne q p _ acc.fs hq
    · rw [if_neg hmod]

theorem processOneFile_successKeys_mono (tm : TM) (tgt src color fmtv : String)
    (acc : PassAcc) (p : String) (items : FRMap) (k : Key)
    (hk : k ∈ acc.successKeys) :
    k ∈ (processOneFile true tm tgt src color fmtv acc p items).1.successKeys := by
  cases hfs : lookupA p acc.fs with
  | none =>
    rw [processOneFile_true_missing tm tgt src color fmtv acc p items hfs]
    exact hk
  | some subs =>
    rw [processOneFile_true_present tm tgt src color fmtv acc p items subs hfs]
    exact foldl_successKeys_mono tm tgt src color fmtv items (fileStart acc subs) k hk

theorem processOneFile_changed_success (tm : TM) (tgt src color fmtv : String)
    (acc : PassAcc) (p : String) (items : FRMap)
    (hpaths : ∀ kd ∈ items, kd.1.1 = p)
    (hch : lookupA p (processOneFile true tm tgt src color fmtv acc p items).1.fs
      ≠ lookupA p acc.fs) :
    ∃ k ∈ (processOneFile true tm tgt src color fmtv acc p items).1.successKeys,
      k.1 = p := by
  cases hfs : lookupA p acc.fs with
  | none =>
    rw [processOneFile_true_missing tm tgt src color fmtv acc p items hfs] at hch
    exact absurd rfl hch
  | some subs =>
    rw [processOneFile_true_present tm tgt src color fmtv acc p items subs hfs] at hch ⊢
    dsimp only at hch ⊢
    by_cases hmod : (items.foldl (itemStep tm tgt src color fmtv) (fileStart acc subs)).modified
    · rcases foldl_modified_from tm tgt src color fmtv items (fileStart acc subs) hmod
        with hm | ⟨kd, hkd, hmem⟩
      · exact absurd hm (by simp [fileStart])
      · exact ⟨kd.1, hmem, hpaths kd hkd⟩
    · rw [if_neg hmod] at hch
      exact absurd rfl hch

theorem retryPassAux_true_step (tm : TM) (tgt src color fmtv : String) (items : FRMap)
    (p : String) (ps : List String) (acc : PassAcc) :
    retryPassAux true tm tgt src color fmtv items (p :: ps) acc
      = retryPassAux true tm tgt src color fmtv items ps
          (processOneFile true tm tgt src color fmtv acc p (groupItems items p)).1 := by
  dsimp only [retryPassAux]
  rw [processOneFile_true_snd]
  rfl

theorem retryPassAux_true_snd (tm : TM) (tgt src color fmtv : String) (items : FRMap) :
    ∀ (paths : List String) (acc : PassAcc),
      (retryPassAux true tm tgt src color fmtv items paths acc).2 = false := by
  intro paths
  induction paths with
  | nil => intro acc; rfl
  | cons p ps ih =>
    intro acc
    rw [retryPassAux_true_step]
    exact ih _

theorem retryPassAux_successKeys_mono (tm : TM) (tgt src color fmtv : String)
    (items : FRMap) :
    ∀ (paths : List String) (acc : PassAcc) (k : Key), k ∈ acc.successKeys →
      k ∈ (retryPassAux true tm tgt src color fmtv items paths acc).1.successKeys := by
  intro paths
  induction paths with
  | nil => intro acc k hk; exact hk
  | cons p ps ih =>
    intro acc k hk
    rw [retryPassAux_true_step]
    exact ih _ k (processOneFile_successKeys_mono tm tgt src color fmtv acc p _ k hk)

theorem retryPassAux_no_success_fs (tm : TM) (tgt src color fmtv : String)
    (items : FRMap) (p : String) :
    ∀ (paths : List String) (acc : PassAcc),
      (∀ k ∈ (retryPassAux true tm tgt src color fmtv items paths acc).1.successKeys,
        k.1 ≠ p) →
      lookupA p (retryPassAux true tm tgt src color fmtv items paths acc).1.fs
        = lookupA p acc.fs := by
  intro paths
  induction paths with
  | nil => intro acc _; rfl
  | cons p' ps ih =>
    intro acc h
    rw [retryPassAux_true_step] at h ⊢
    have h1 : ∀ k ∈ (processOneFile true tm tgt src color fmtv acc p'
        (groupItems items p')).1.successKeys, k.1 ≠ p :=
      fun k hk => h k (retryPassAux_successKeys_mono tm tgt src color fmtv items ps _ k hk)
    have hfs1 : lookupA p (processOneFile true tm tgt src color fmtv acc p'
        (groupItems items p')).1.fs = lookupA p acc.fs := by
      by_cases hpp : p' = p
      · subst hpp
        by_contra hne
        obtain ⟨k, hk, hkp⟩ := processOneFile_changed_success tm tgt src color fmtv acc p'
          (groupItems items p') (fun kd hkd => groupItems_path hkd) hne
        exact h1 k hk hkp
      · exact processOneFile_fs_ne tm tgt src color fmtv acc p' p _
          (fun hc => hpp hc.symm)
    rw [ih _ h]
    exact hfs1

/-- C10: within one sequential retry pass, an output file is rewritten only
if at least one of its lines was successfully retranslated in that pass: if
no success of the pass belongs to path p, the on-disk contents of p are
unchanged by the pass. -/
theorem C10_no_success_no_rewrite (tm : TM)
    (target_lang source_lang subtitle_color format_var : String)
    (engine : EngineState) (callNo : Nat) (untr : FRMap) (fs : FileSystem) (p : String)
    (hns : ∀ k ∈ (retry_untranslated_lines_sequential true tm target_lang source_lang
      subtitle_color format_var engine callNo untr fs).1.successKeys, k.1 ≠ p) :
    lookupA p (retry_untranslated_lines_sequential true tm target_lang source_lang
        subtitle_color format_var engine callNo untr fs).1.fs
      = lookupA p fs := by
  unfold retry_untranslated_lines_sequential at hns ⊢
  by_cases h : untr = []
  · rw [if_pos h]
  · rw [if_neg h] at hns ⊢
    exact retryPassAux_no_success_fs tm target_lang source_lang subtitle_color format_var
      untr p (groupPaths untr) _ hns

/-- Witness for C10: a pass over one record whose retranslation keeps
returning the original text; no line succeeds and the file content at its
path is untouched. -/
theorem C10_no_success_no_rewrite_witness :
    lookupA "o.srt" (retry_untranslated_lines_sequential true
        (fun _ st text _ _ => (st, text)) "Spanish" "Auto" "" ""
        ⟨[], 0, 0, 0, ["e1"], 0⟩ 0 [(("o.srt", 1), ⟨"x", 1⟩)]
        [("o.srt", [⟨1, "x"⟩])]).1.fs
      = lookupA "o.srt" [("o.srt", [⟨1, "x"⟩])] := by
  exact C10_no_success_no_rewrite (fun _ st text _ _ => (st, text)) "Spanish" "Auto" "" ""
    ⟨[], 0, 0, 0, ["e1"], 0⟩ 0 [(("o.srt", 1), ⟨"x", 1⟩)] [("o.srt", [⟨1, "x"⟩])] "o.srt"
    (by decide)

/-! ### C3: bounded attempts per failure record across retry passes -/

/-- Number of occurrences of a key in a list of attempted keys. -/
def countKey (k : Key) : List Key → Nat
  | [] => 0
  | x :: t => (if x = k then 1 else 0) + countKey k t

/-- Remaining retry budget of a failure-record slot: the distance of its
failure count from the cap (0 both for an absent record and for one at or
beyond the cap). -/
def phiOpt : Option FR → Nat
  | none => 0
  | some d => MAX_FAILURES_PER_LINE - d.failure_count

theorem countKey_append (k : Key) (a b : List Key) :
    countKey k (a ++ b) = countKey k a + countKey k b := by
  induction a with
  | nil => simp [countKey]
  | cons x t ih => simp [countKey, ih]; omega

theorem phiOpt_le_max (o : Option FR) : phiOpt o ≤ MAX_FAILURES_PER_LINE := by
  cases o with
  | none => exact Nat.zero_le _
  | some d => exact Nat.sub_le _ _

theorem itemStep_key_other (tm : TM) (tgt src color fmtv : String) (s : PassSt)
    (kd : Key × FR) (k : Key) (hne : kd.1 ≠ k) :
    countKey k (itemStep tm tgt src color fmtv s kd).attempted
        = countKey k s.attempted
      ∧ lookupA k (itemStep tm tgt src color fmtv s kd).nextUntr
        = lookupA k s.nextUntr := by
  have hca : countKey k (s.attempted ++ [kd.1]) = countKey k s.attempted := by
    rw [countKey_append]
    simp [countKey, hne]
  have hlk : ∀ (d : FR) (m : FRMap), lookupA k (setA kd.1 d m) = lookupA k m :=
    fun d m => lookupA_setA_ne k kd.1 d m (fun h => hne h.symm)
  rcases itemStep_shape tm tgt src color fmtv s kd with ⟨_, h⟩ | ⟨_, h⟩ | ⟨_, h⟩
    | ⟨_, e, sb, h⟩ | ⟨_, e, h⟩ <;> rw [h] <;>
    simp only [hca, hlk] <;> exact ⟨by trivial, by trivial⟩

theorem itemStep_key_self (tm : TM) (tgt src color fmtv : String) (s : PassSt)
    (kd : Key × FR) (k : Key) (hk : kd.1 = k)
    (hfresh : lookupA k s.nextUntr = none) :
    countKey k (itemStep tm tgt src color fmtv s kd).attempted
        + phiOpt (lookupA k (itemStep tm tgt src color fmtv s kd).nextUntr)
      ≤ countKey k s.attempted + phiOpt (some kd.2) := by
  subst hk
  have hca : countKey kd.1 (s.attempted ++ [kd.1])
      = countKey kd.1 s.attempted + 1 := by
    rw [countKey_append]
    simp [countKey]
  rcases itemStep_shape tm tgt src color fmtv s kd with ⟨hcap, h⟩ | ⟨hcap, h⟩
    | ⟨hcap, h⟩ | ⟨hcap, e, sb, h⟩ | ⟨hcap, e, h⟩ <;> rw [h]
  · simp only [lookupA_setA_self]
    exact Nat.le_refl _
  · simp only [lookupA_setA_self, phiOpt]
    omega
  · rw [hfresh]
    simp only [phiOpt]
    omega
  · simp only [hca, hfresh, phiOpt]
    omega
  · simp only [hca, lookupA_setA_self, phiOpt]
    omega

theorem itemStep_key_capped (tm : TM) (tgt src color fmtv : String) (s : PassSt)
    (kd : Key × FR) (k : Key) (hk : kd.1 = k)
    (hcap : kd.2.failure_count = MAX_FAILURES_PER_LINE) :
    countKey k (itemStep tm tgt src color fmtv s kd).attempted
        = countKey k s.attempted
      ∧ lookupA k (itemStep tm tgt src color fmtv s kd).nextUntr = some kd.2 := by
  subst hk
  have hle : MAX_FAILURES_PER_LINE ≤ kd.2.failure_count := Nat.le_of_eq hcap.symm
  have h : itemStep tm tgt src color fmtv s kd
      = { s with nextUntr := setA kd.1 kd.2 s.nextUntr } := by
    simp only [itemStep, if_pos hle]
  rw [h]
  exact ⟨rfl, lookupA_setA_self _ _ _⟩

theorem foldl_key_other (tm : TM) (tgt src color fmtv : String) :
    ∀ (items : List (Key × FR)) (s : PassSt) (k : Key),
      (∀ kd ∈ items, kd.1 ≠ k) →
      countKey k (items.foldl (itemStep tm tgt src color fmtv) s).attempted
          = countKey k s.attempted
        ∧ lookupA k (items.foldl (itemStep tm tgt src color fmtv) s).nextUntr
          = lookupA k s.nextUntr := by
  intro items
  induction items with
  | nil => intro s k _; exact ⟨rfl, rfl⟩
  | cons kd rest ih =>
    intro s k hne
    have h1 := itemStep_key_other tm tgt src color fmtv s kd k
      (hne kd (List.mem_cons_self _ _))
    have h2 := ih (itemStep tm tgt src color fmtv s kd) k
      (fun kd' h => hne kd' (List.mem_cons_of_mem _ h))
    exact ⟨h2.1.trans h1.1, h2.2.trans h1.2⟩

theorem foldl_key_self (tm : TM) (tgt src color fmtv : String) :
    ∀ (items : List (Key × FR)) (s : PassSt) (k : Key) (d : FR),
      ((items.map Prod.fst).Nodup) → (k, d) ∈ items →
      lookupA k s.nextUntr = none →
      countKey k (items.foldl (itemStep tm tgt src color fmtv) s).attempted
          + phiOpt (lookupA k (items.foldl (itemStep tm tgt src color fmtv) s).nextUntr)
        ≤ countKey k s.attempted + phiOpt (some d) := by
  intro items
  induction items with
  | nil => intro s k d _ hmem _; simp at hmem
  | cons kd rest ih =>
    intro s k d hnodup hmem hfresh
    simp only [List.map_cons, List.nodup_cons] at hnodup
    rcases List.mem_cons.mp hmem with he | he
    · have hk : kd.1 = k := by rw [← he]
      have hd : kd.2 = d := by rw [← he]
      have hnok : ∀ kd' ∈ rest, kd'.1 ≠ k := by
        intro kd' h hc
        exact hnodup.1 (List.mem_map.mpr ⟨kd', h, hc.trans hk.symm⟩)
      have hrest := foldl_key_other tm tgt src color fmtv rest
        (itemStep tm tgt src color fmtv s kd) k hnok
      rw [List.foldl_cons, hrest.1, hrest.2]
      exact hd ▸ itemStep_key_self tm tgt src color fmtv s kd k hk hfresh
    · have hk : kd.1 ≠ k := by
        intro hc
        exact hnodup.1 (List.mem_map.mpr ⟨(k, d), he, hc.symm⟩)
      have h1 := itemStep_key_other tm tgt src color fmtv s kd k hk
      rw [List.foldl_cons]
      have := ih (itemStep tm tgt src color fmtv s kd) k d hnodup.2 he
        (h1.2.trans hfresh)
      calc countKey k ((rest.foldl (itemStep tm tgt src color fmtv)
            (itemStep tm tgt src color fmtv s kd))).attempted
          + phiOpt (lookupA k ((rest.foldl (itemStep tm tgt src color fmtv)
            (itemStep tm tgt src color fmtv s kd))).nextUntr)
          ≤ countKey k (itemStep tm tgt src color fmtv s kd).attempted + phiOpt (some d) :=
            this
        _ = countKey k s.attempted + phiOpt (some d) := by rw [h1.1]

theorem foldl_key_capped (tm : TM) (tgt src color fmtv : String) :
    ∀ (items : List (Key × FR)) (s : PassSt) (k : Key) (d : FR),
      ((items.map Prod.fst).Nodup) → (k, d) ∈ items →
      d.failure_count = MAX_FAILURES_PER_LINE →
      countKey k (items.foldl (itemStep tm tgt src color fmtv) s).attempted
          = countKey k s.attempted
        ∧ lookupA k (items.foldl (itemStep tm tgt src color fmtv) s).nextUntr
          = some d := by
  intro items
  induction items with
  | nil => intro s k d _ hmem _; simp at hmem
  | cons kd rest ih =>
    intro s k d hnodup hmem hcap
    simp only [List.map_cons, List.nodup_cons] at hnodup
    rcases List.mem_cons.mp hmem with he | he
    · have hk : kd.1 = k := by rw [← he]
      have hd : kd.2 = d := by rw [← he]
      have hnok : ∀ kd' ∈ rest, kd'.1 ≠ k := by
        intro kd' h hc
        exact hnodup.1 (List.mem_map.mpr ⟨kd', h, hc.trans hk.symm⟩)
      have hrest := foldl_key_other tm tgt src color fmtv rest
        (itemStep tm tgt src color fmtv s kd) k hnok
      have hstep := itemStep_key_capped tm tgt src color fmtv s kd k hk (hd ▸ hcap)
      rw [List.foldl_cons, hrest.1, hrest.2, hstep.2, hd]
      exact ⟨hstep.1, rfl⟩
    · have hk : kd.1 ≠ k := by
        intro hc
        exact hnodup.1 (List.mem_map.mpr ⟨(k, d), he, hc.symm⟩)
      have h1 := itemStep_key_other tm tgt src color fmtv s kd k hk
      rw [List.foldl_cons]
      have := ih (itemStep tm tgt src color fmtv s kd) k d hnodup.2 he hcap
      exact ⟨this.1.trans h1.1, this.2⟩

theorem capAll_other (k : Key) :
    ∀ (items : FRMap) (m : FRMap), (∀ kd ∈ items, kd.1 ≠ k) →
      lookupA k (capAll items m) = lookupA k m := by
  intro items
  induction items with
  | nil => intro m _; rfl
  | cons kd rest ih =>
    intro m hne
    show lookupA k (capAll rest (setA kd.1 _ m)) = lookupA k m
    rw [ih _ (fun kd' h => hne kd' (List.mem_cons_of_mem _ h)),
      lookupA_setA_ne k kd.1 _ m (fun h => hne kd (List.mem_cons_self _ _) h.symm)]

theorem capAll_mem (k : Key) (d : FR) :
    ∀ (items : FRMap) (m : FRMap), ((items.map Prod.fst).Nodup) → (k, d) ∈ items →
      lookupA k (capAll items m)
        = some ⟨d.original_text, MAX_FAILURES_PER_LINE⟩ := by
  intro items
  induction items with
  | nil => intro m _ hmem; simp at hmem
  | cons kd rest ih =>
    intro m hnodup hmem
    simp only [List.map_cons, List.nodup_cons] at hnodup
    rcases List.mem_cons.mp hmem with he | he
    · have hnok : ∀ kd' ∈ rest, kd'.1 ≠ k := by
        intro kd' h hc
        exact hnodup.1 (List.mem_map.mpr ⟨kd', h, hc.trans (by rw [← he])⟩)
      show lookupA k (capAll rest (setA kd.1 _ m)) = _
      rw [capAll_other k rest _ hnok, ← he, lookupA_setA_self]
    · show lookupA k (capAll rest (setA kd.1 _ m)) = _
      exact ih _ hnodup.2 he

theorem processOneFile_key_other (tm : TM) (tgt src color fmtv : String)
    (acc : PassAcc) (p : String) (items : FRMap) (k : Key)
    (hne : ∀ kd ∈ items, kd.1 ≠ k) :
    countKey k (processOneFile true tm tgt src color fmtv acc p items).1.attempted
        = countKey k acc.attempted
      ∧ lookupA k (processOneFile true tm tgt src color fmtv acc p items).1.nextUntr
        = lookupA k acc.nextUntr := by
  cases hfs : lookupA p acc.fs with
  | none =>
    rw [processOneFile_true_missing tm tgt src color fmtv acc p items hfs]
    exact ⟨rfl, capAll_other k items acc.nextUntr hne⟩
  | some subs =>
    rw [processOneFile_true_present tm tgt src color fmtv acc p items subs hfs]
    exact foldl_key_other tm tgt src color fmtv items (fileStart acc subs) k hne

theorem processOneFile_key_self (tm : TM) (tgt src color fmtv : String)
    (acc : PassAcc) (p : String) (items : FRMap) (k : Key) (d : FR)
    (hnodup : (items.map Prod.fst).Nodup) (hmem : (k, d) ∈ items)
    (hfresh : lookupA k acc.nextUntr = none) :
    countKey k (processOneFile true tm tgt src color fmtv acc p items).1.attempted
        + phiOpt (lookupA k
          (processOneFile true tm tgt src color fmtv acc p items).1.nextUntr)
      ≤ countKey k acc.attempted + phiOpt (some d) := by
  cases hfs : lookupA p acc.fs with
  | none =>
    rw [processOneFile_true_missing tm tgt src color fmtv acc p items hfs]
    dsimp only
    rw [capAll_mem k d items acc.nextUntr hnodup hmem]
    simp only [phiOpt, Nat.sub_self]
    omega
  | some subs =>
    rw [processOneFile_true_present tm tgt src color fmtv acc p items subs hfs]
    exact foldl_key_self tm tgt src color fmtv items (fileStart acc subs) k d hnodup
      hmem hfresh

theorem processOneFile_key_capped (tm : TM) (tgt src color fmtv : String)
    (acc : PassAcc) (p : String) (items : FRMap) (k : Key) (d : FR)
    (hnodup : (items.map Prod.fst).Nodup) (hmem : (k, d) ∈ items)
    (hcap : d.failure_count = MAX_FAILURES_PER_LINE) :
    countKey k (processOneFile true tm tgt src color fmtv acc p items).1.attempted
        = countKey k acc.attempted
      ∧ lookupA k (processOneFile true tm tgt src color fmtv acc p items).1.nextUntr
        = some d := by
  cases hfs : lookupA p acc.fs with
  | none =>
    rw [processOneFile_true_missing tm tgt src color fmtv acc p items hfs]
    refine ⟨rfl, ?_⟩
    rw [capAll_mem k d items acc.nextUntr hnodup hmem]
    cases d with
    | mk o c =>
      simp only at hcap
      rw [hcap]
  | some subs =>
    rw [processOneFile_true_present tm tgt src color fmtv acc p items subs hfs]
    exact foldl_key_capped tm tgt src color fmtv items (fileStart acc subs) k d hnodup
      hmem hcap

theorem lookupA_none_not_mem {κ α : Type} [DecidableEq κ] {k : κ} {m : List (κ × α)}
    (h : lookupA k m = none) : ∀ v, (k, v) ∉ m := by
  induction m with
  | nil => intro v hv; simp at hv
  | cons hd tl ih =>
    intro v hv
    cases hd with
    | mk k0 v0 =>
      simp only [lookupA] at h
      by_cases h1 : k = k0
      · rw [if_pos h1] at h
        cases h
      · rw [if_neg h1] at h
        rcases List.mem_cons.mp hv with he | he
        · exact h1 (by cases he; rfl)
        · exact ih h v he

theorem groupItems_mem_intro {items : FRMap} {p : String} {kd : Key × FR}
    (h : kd ∈ items) (hp : kd.1.1 = p) : kd ∈ groupItems items p :=
  List.mem_filter.mpr ⟨h, decide_eq_true hp⟩

theorem groupItems_mem_items {items : FRMap} {p : String} {kd : Key × FR}
    (h : kd ∈ groupItems items p) : kd ∈ items :=
  (List.mem_filter.mp h).1

theorem groupItems_nodup {items : FRMap} {p : String}
    (h : (items.map Prod.fst).Nodup) : ((groupItems items p).map Prod.fst).Nodup :=
  ((List.filter_sublist items).map Prod.fst).nodup h

theorem groupPathsStep_mono :
    ∀ (items : FRMap) (acc : List String) (x : String), x ∈ acc →
      x ∈ items.foldl
        (fun acc kd => if kd.1.1 ∈ acc then acc else acc ++ [kd.1.1]) acc := by
  intro items
  induction items with
  | nil => intro acc x hx; exact hx
  | cons kd rest ih =>
    intro acc x hx
    rw [List.foldl_cons]
    refine ih _ x ?_
    dsimp only
    by_cases h : kd.1.1 ∈ acc
    · rw [if_pos h]; exact hx
    · rw [if_neg h]; exact List.mem_append_left _ hx

theorem groupPaths_mem_of :
    ∀ (items : FRMap) (acc : List String) (kd : Key × FR), kd ∈ items →
      kd.1.1 ∈ items.foldl
        (fun acc kd => if kd.1.1 ∈ acc then acc else acc ++ [kd.1.1]) acc := by
  intro items
  induction items with
  | nil => intro acc kd h; simp at h
  | cons kd0 rest ih =>
    intro acc kd h
    rw [List.foldl_cons]
    rcases List.mem_cons.mp h with he | he
    · subst he
      refine groupPathsStep_mono rest _ kd.1.1 ?_
      dsimp only
      by_cases h0 : kd.1.1 ∈ acc
      · rw [if_pos h0]; exact h0
      · rw [if_neg h0]; exact List.mem_append_right _ (List.mem_singleton.mpr rfl)
    · exact ih _ kd he

theorem groupPaths_mem (items : FRMap) (kd : Key × FR) (h : kd ∈ items) :
    kd.1.1 ∈ groupPaths items :=
  groupPaths_mem_of items [] kd h

theorem groupPaths_nodup_aux :
    ∀ (items : FRMap) (acc : List String), acc.Nodup →
      (items.foldl
        (fun acc kd => if kd.1.1 ∈ acc then acc else acc ++ [kd.1.1]) acc).Nodup := by
  intro items
  induction items with
  | nil => intro acc h; exact h
  | cons kd rest ih =>
    intro acc h
    rw [List.foldl_cons]
    refine ih _ ?_
    dsimp only
    by_cases h0 : kd.1.1 ∈ acc
    · rw [if_pos h0]; exact h
    · rw [if_neg h0]
      simp [List.nodup_append, h, h0]

theorem groupPaths_nodup (items : FRMap) : (groupPaths items).Nodup :=
  groupPaths_nodup_aux items [] List.nodup_nil

theorem retryPassAux_key_skip (tm : TM) (tgt src color fmtv : String) (items : FRMap)
    (k : Key) :
    ∀ (paths : List String) (acc : PassAcc),
      (∀ p' ∈ paths, ∀ kd ∈ groupItems items p', kd.1 ≠ k) →
      countKey k (retryPassAux true tm tgt src color fmtv items paths acc).1.attempted
          = countKey k acc.attempted
        ∧ lookupA k (retryPassAux true tm tgt src color fmtv items paths acc).1.nextUntr
          = lookupA k acc.nextUntr := by
  intro paths
  induction paths with
  | nil => intro acc _; exact ⟨rfl, rfl⟩
  | cons p' ps ih =>
    intro acc hskip
    rw [retryPassAux_true_step]
    have h1 := processOneFile_key_other tm tgt src color fmtv acc p'
      (groupItems items p') k (hskip p' (List.mem_cons_self _ _))
    have h2 := ih (processOneFile true tm tgt src color fmtv acc p'
        (groupItems items p')).1
      (fun p'' hp'' => hskip p'' (List.mem_cons_of_mem _ hp''))
    exact ⟨h2.1.trans h1.1, h2.2.trans h1.2⟩

theorem retryPassAux_key_bound (tm : TM) (tgt src color fmtv : String) (untr : FRMap)
    (k : Key) (d : FR) (huntr : (untr.map Prod.fst).Nodup)
    (hd : lookupA k untr = some d) :
    ∀ (paths : List String) (acc : PassAcc), paths.Nodup →
      lookupA k acc.nextUntr = none →
      countKey k (retryPassAux true tm tgt src color fmtv untr paths acc).1.attempted
          + phiOpt (lookupA k
            (retryPassAux true tm tgt src color fmtv untr paths acc).1.nextUntr)
        ≤ countKey k acc.attempted
          + (if k.1 ∈ paths then phiOpt (some d) else 0) := by
  intro paths
  induction paths with
  | nil =>
    intro acc _ hfresh
    simp only [retryPassAux, hfresh, phiOpt]
    simp
  | cons p' ps ih =>
    intro acc hnd hfresh
    rw [retryPassAux_true_step]
    have hnd' := List.nodup_cons.mp hnd
    by_cases hpp : p' = k.1
    · have hmem : (k, d) ∈ groupItems untr p' :=
        groupItems_mem_intro (lookupA_mem hd) hpp.symm
      have h1 := processOneFile_key_self tm tgt src color fmtv acc p'
        (groupItems untr p') k d (groupItems_nodup huntr) hmem hfresh
      have hskip : ∀ p'' ∈ ps, ∀ kd ∈ groupItems untr p'', kd.1 ≠ k := by
        intro p'' hp'' kd hkd hc
        refine hnd'.1 ?_
        rw [hpp, ← hc, groupItems_path hkd]
        exact hp''
      have h2 := retryPassAux_key_skip tm tgt src color fmtv untr k ps
        (processOneFile true tm tgt src color fmtv acc p' (groupItems untr p')).1 hskip
      rw [h2.1, h2.2, if_pos (List.mem_cons.mpr (Or.inl hpp.symm))]
      exact h1
    · have hskip1 : ∀ kd ∈ groupItems untr p', kd.1 ≠ k := by
        intro kd hkd hc
        exact hpp (by rw [← groupItems_path hkd, hc])
      have h1 := processOneFile_key_other tm tgt src color fmtv acc p'
        (groupItems untr p') k hskip1
      have h2 := ih (processOneFile true tm tgt src color fmtv acc p'
        (groupItems untr p')).1 hnd'.2 (h1.2.trans hfresh)
      rw [h1.1] at h2
      by_cases hin : k.1 ∈ ps
      · rw [if_pos hin] at h2
        rw [if_pos (List.mem_cons_of_mem _ hin)]
        exact h2
      · rw [if_neg hin] at h2
        rw [if_neg (fun hc => (List.mem_cons.mp hc).elim
          (fun he => hpp he.symm) hin)]
        exact h2

theorem retryPassAux_key_capped (tm : TM) (tgt src color fmtv : String) (untr : FRMap)
    (k : Key) (d : FR) (huntr : (untr.map Prod.fst).Nodup)
    (hd : lookupA k untr = some d)
    (hcap : d.failure_count = MAX_FAILURES_PER_LINE) :
    ∀ (paths : List String) (acc : PassAcc), paths.Nodup →
      countKey k (retryPassAux true tm tgt src color fmtv untr paths acc).1.attempted
          = countKey k acc.attempted
        ∧ lookupA k (retryPassAux true tm tgt src color fmtv untr paths acc).1.nextUntr
          = (if k.1 ∈ paths then some d else lookupA k acc.nextUntr) := by
  intro paths
  induction paths with
  | nil =>
    intro acc _
    refine ⟨rfl, ?_⟩
    rw [if_neg (List.not_mem_nil k.1)]
    rfl
  | cons p' ps ih =>
    intro acc hnd
    rw [retryPassAux_true_step]
    have hnd' := List.nodup_cons.mp hnd
    by_cases hpp : p' = k.1
    · have hmem : (k, d) ∈ groupItems untr p' :=
        groupItems_mem_intro (lookupA_mem hd) hpp.symm
      have h1 := processOneFile_key_capped tm tgt src color fmtv acc p'
        (groupItems untr p') k d (groupItems_nodup huntr) hmem hcap
      have hskip : ∀ p'' ∈ ps, ∀ kd ∈ groupItems untr p'', kd.1 ≠ k := by
        intro p'' hp'' kd hkd hc
        refine hnd'.1 ?_
        rw [hpp, ← hc, groupItems_path hkd]
        exact hp''
      have h2 := retryPassAux_key_skip tm tgt src color fmtv untr k ps
        (processOneFile true tm tgt src color fmtv acc p' (groupItems untr p')).1 hskip
      rw [h2.1, h2.2, h1.1, h1.2, if_pos (List.mem_cons.mpr (Or.inl hpp.symm))]
      exact ⟨rfl, rfl⟩
    · have hskip1 : ∀ kd ∈ groupItems untr p', kd.1 ≠ k := by
        intro kd hkd hc
        exact hpp (by rw [← groupItems_path hkd, hc])
      have h1 := processOneFile_key_other tm tgt src color fmtv acc p'
        (groupItems untr p') k hskip1
      have h2 := ih (processOneFile true tm tgt src color fmtv acc p'
        (groupItems untr p')).1 hnd'.2
      rw [h2.1, h1.1, h2.2, h1.2]
      by_cases hin : k.1 ∈ ps
      · rw [if_pos hin, if_pos (List.mem_cons_of_mem _ hin)]
        exact ⟨rfl, rfl⟩
      · rw [if_neg hin, if_neg (fun hc => (List.mem_cons.mp hc).elim
          (fun he => hpp he.symm) hin)]
        exact ⟨rfl, rfl⟩

theorem mem_setA_keys {κ α : Type} [DecidableEq κ] (k : κ) (v : α) :
    ∀ (m : List (κ × α)) (x : κ), x ∈ (setA k v m).map Prod.fst →
      x ∈ m.map Prod.fst ∨ x = k := by
  intro m
  induction m with
  | nil =>
    intro x hx
    simp [setA] at hx
    exact Or.inr hx
  | cons hd tl ih =>
    intro x hx
    cases hd with
    | mk k0 v0 =>
      by_cases h : k = k0
      · simp only [setA, if_pos h, List.map_cons, List.mem_cons] at hx
        rcases hx with hx | hx
        · exact Or.inr hx
        · exact Or.inl (List.mem_cons_of_mem _ hx)
      · simp only [setA, if_neg h, List.map_cons, List.mem_cons] at hx
        rcases hx with hx | hx
        · exact Or.inl (List.mem_cons.mpr (Or.inl hx))
        · rcases ih x hx with h1 | h1
          · exact Or.inl (List.mem_cons_of_mem _ h1)
          · exact Or.inr h1

theorem setA_keys_nodup {κ α : Type} [DecidableEq κ] (k : κ) (v : α) :
    ∀ (m : List (κ × α)), (m.map Prod.fst).Nodup → ((setA k v m).map Prod.fst).Nodup := by
  intro m
  induction m with
  | nil => intro _; simp [setA]
  | cons hd tl ih =>
    intro hm
    cases hd with
    | mk k0 v0 =>
      simp only [List.map_cons, List.nodup_cons] at hm
      by_cases h : k = k0
      · simp only [setA, if_pos h, List.map_cons, List.nodup_cons]
        exact ⟨h ▸ hm.1, hm.2⟩
      · simp only [setA, if_neg h, List.map_cons, List.nodup_cons]
        refine ⟨fun hc => ?_, ih hm.2⟩
        rcases mem_setA_keys k v tl k0 hc with h1 | h1
        · exact hm.1 h1
        · exact h h1.symm

theorem itemStep_nextUntr_nodup (tm : TM) (tgt src color fmtv : String) (s : PassSt)
    (kd : Key × FR) (h : (s.nextUntr.map Prod.fst).Nodup) :
    ((itemStep tm tgt src color fmtv s kd).nextUntr.map Prod.fst).Nodup := by
  rcases itemStep_shape tm tgt src color fmtv s kd with ⟨_, heq⟩ | ⟨_, heq⟩ | ⟨_, heq⟩
    | ⟨_, e, sb, heq⟩ | ⟨_, e, heq⟩ <;> rw [heq] <;>
    first
      | exact setA_keys_nodup _ _ _ h
      | exact h

theorem foldl_nextUntr_nodup (tm : TM) (tgt src color fmtv : String) :
    ∀ (items : List (Key × FR)) (s : PassSt), (s.nextUntr.map Prod.fst).Nodup →
      ((items.foldl (itemStep tm tgt src color fmtv) s).nextUntr.map Prod.fst).Nodup := by
  intro items
  induction items with
  | nil => intro s h; exact h
  | cons kd rest ih =>
    intro s h
    exact ih _ (itemStep_nextUntr_nodup tm tgt src color fmtv s kd h)

theorem capAll_nodup :
    ∀ (items : FRMap) (m : FRMap), (m.map Prod.fst).Nodup →
      ((capAll items m).map Prod.fst).Nodup := by
  intro items
  induction items with
  | nil => intro m h; exact h
  | cons kd rest ih =>
    intro m h
    exact ih _ (setA_keys_nodup _ _ _ h)

theorem processOneFile_nextUntr_nodup (tm : TM) (tgt src color fmtv : String)
    (acc : PassAcc) (p : String) (items : FRMap)
    (h : (acc.nextUntr.map Prod.fst).Nodup) :
    ((processOneFile true tm tgt src color fmtv acc p items).1.nextUntr.map
      Prod.fst).Nodup := by
  cases hfs : lookupA p acc.fs with
  | none =>
    rw [processOneFile_true_missing tm tgt src color fmtv acc p items hfs]
    exact capAll_nodup items acc.nextUntr h
  | some subs =>
    rw [processOneFile_true_present tm tgt src color fmtv acc p items subs hfs]
    exact foldl_nextUntr_nodup tm tgt src color fmtv items (fileStart acc subs) h

theorem retryPassAux_nextUntr_nodup (tm : TM) (tgt src color fmtv : String)
    (items : FRMap) :
    ∀ (paths : List String) (acc : PassAcc), (acc.nextUntr.map Prod.fst).Nodup →
      ((retryPassAux true tm tgt src color fmtv items paths acc).1.nextUntr.map
        Prod.fst).Nodup := by
  intro paths
  induction paths with
  | nil => intro acc h; exact h
  | cons p ps ih =>
    intro acc h
    rw [retryPassAux_true_step]
    exact ih _ (processOneFile_nextUntr_nodup tm tgt src color fmtv acc p _ h)

theorem retry_pass_true_snd (tm : TM) (tgt src color fmtv : String)
    (engine : EngineState) (callNo : Nat) (untr : FRMap) (fs : FileSystem) :
    (retry_untranslated_lines_sequential true tm tgt src color fmtv engine callNo
      untr fs).2 = false := by
  unfold retry_untranslated_lines_sequential
  by_cases h : untr = []
  · rw [if_pos h]
  · rw [if_neg h]
    exact retryPassAux_true_snd tm tgt src color fmtv untr _ _

theorem retry_pass_nextUntr_nodup (tm : TM) (tgt src color fmtv : String)
    (engine : EngineState) (callNo : Nat) (untr : FRMap) (fs : FileSystem) :
    ((retry_untranslated_lines_sequential true tm tgt src color fmtv engine callNo
      untr fs).1.nextUntr.map Prod.fst).Nodup := by
  unfold retry_untranslated_lines_sequential
  by_cases h : untr = []
  · rw [if_pos h]
    exact List.nodup_nil
  · rw [if_neg h]
    exact retryPassAux_nextUntr_nodup tm tgt src color fmtv untr _ _ List.nodup_nil

/-- One retry pass never spends more than the remaining retry budget of a
record: the number of attempts for key k plus the remaining budget
afterwards is at most the budget before the pass. -/
theorem retry_pass_key_bound (tm : TM) (tgt src color fmtv : String)
    (engine : EngineState) (callNo : Nat) (untr : FRMap) (fs : FileSystem)
    (hnodup : (untr.map Prod.fst).Nodup) (k : Key) :
    countKey k (retry_untranslated_lines_sequential true tm tgt src color fmtv engine
        callNo untr fs).1.attempted
      + phiOpt (lookupA k (retry_untranslated_lines_sequential true tm tgt src color
        fmtv engine callNo untr fs).1.nextUntr)
      ≤ phiOpt (lookupA k untr) := by
  unfold retry_untranslated_lines_sequential
  by_cases h : untr = []
  · rw [if_pos h]
    subst h
    simp [countKey, lookupA, phiOpt]
  · rw [if_neg h]
    cases hd : lookupA k untr with
    | none =>
      have hskip : ∀ p' ∈ groupPaths untr, ∀ kd ∈ groupItems untr p', kd.1 ≠ k := by
        intro p' _ kd hkd hc
        exact lookupA_none_not_mem hd kd.2
          (by rw [← hc]; exact groupItems_mem_items hkd)
      have h2 := retryPassAux_key_skip tm tgt src color fmtv untr k (groupPaths untr)
        { engine := engine, callNo := callNo, fs := fs, nextUntr := [], successes := 0,
          attempted := [], successKeys := [] } hskip
      rw [h2.1, h2.2]
      simp [countKey, lookupA, phiOpt]
    | some d =>
      have h2 := retryPassAux_key_bound tm tgt src color fmtv untr k d hnodup hd
        (groupPaths untr)
        { engine := engine, callNo := callNo, fs := fs, nextUntr := [], successes := 0,
          attempted := [], successKeys := [] } (groupPaths_nodup untr) (by rfl)
      refine le_trans h2 ?_
      simp only [countKey, phiOpt]
      by_cases hin : k.1 ∈ groupPaths untr
      · rw [if_pos hin]
        omega
      · rw [if_neg hin]
        exact Nat.zero_le _

/-- A record whose failure count sits at the cap is never attempted in a
retry pass and is carried into the next untranslated set unchanged. -/
theorem retry_pass_key_capped (tm : TM) (tgt src color fmtv : String)
    (engine : EngineState) (callNo : Nat) (untr : FRMap) (fs : FileSystem)
    (hnodup : (untr.map Prod.fst).Nodup) (k : Key) (d : FR)
    (hd : lookupA k untr = some d)
    (hcap : d.failure_count = MAX_FAILURES_PER_LINE) :
    countKey k (retry_untranslated_lines_sequential true tm tgt src color fmtv engine
        callNo untr fs).1.attempted = 0
      ∧ lookupA k (retry_untranslated_lines_sequential true tm tgt src color fmtv
        engine callNo untr fs).1.nextUntr = some d := by
  have hne : untr ≠ [] := by
    intro hc
    rw [hc] at hd
    cases hd
  unfold retry_untranslated_lines_sequential
  rw [if_neg hne]
  have h2 := retryPassAux_key_capped tm tgt src color fmtv untr k d hnodup hd hcap
    (groupPaths untr)
    { engine := engine, callNo := callNo, fs := fs, nextUntr := [], successes := 0,
      attempted := [], successKeys := [] } (groupPaths_nodup untr)
  refine ⟨h2.1, ?_⟩
  rw [h2.2, if_pos (groupPaths_mem untr (k, d) (lookupA_mem hd))]

theorem retryLoop_true_succ (tm : TM) (tgt src color fmtv : String) (fuel : Nat)
    (s : RunSt) (hne : ¬ s.untr = []) :
    retryLoop true tm tgt src color fmtv (fuel + 1) s
      = (if (retry_untranslated_lines_sequential true tm tgt src color fmtv s.engine
            s.callNo s.untr s.fs).1.nextUntr.length = 0 then
          { engine := (retry_untranslated_lines_sequential true tm tgt src color fmtv
              s.engine s.callNo s.untr s.fs).1.engine,
            callNo := (retry_untranslated_lines_sequential true tm tgt src color fmtv
              s.engine s.callNo s.untr s.fs).1.callNo,
            fs := (retry_untranslated_lines_sequential true tm tgt src color fmtv
              s.engine s.callNo s.untr s.fs).1.fs,
            untr := (retry_untranslated_lines_sequential true tm tgt src color fmtv
              s.engine s.callNo s.untr s.fs).1.nextUntr,
            retryAttempted := s.retryAttempted
              ++ (retry_untranslated_lines_sequential true tm tgt src color fmtv
                s.engine s.callNo s.untr s.fs).1.attempted,
            retrySuccesses := s.retrySuccesses
              + (retry_untranslated_lines_sequential true tm tgt src color fmtv
                s.engine s.callNo s.untr s.fs).1.successes,
            wasCancelled := false }
        else retryLoop true tm tgt src color fmtv fuel
          { engine := (retry_untranslated_lines_sequential true tm tgt src color fmtv
              s.engine s.callNo s.untr s.fs).1.engine,
            callNo := (retry_untranslated_lines_sequential true tm tgt src color fmtv
              s.engine s.callNo s.untr s.fs).1.callNo,
            fs := (retry_untranslated_lines_sequential true tm tgt src color fmtv
              s.engine s.callNo s.untr s.fs).1.fs,
            untr := (retry_untranslated_lines_sequential true tm tgt src color fmtv
              s.engine s.callNo s.untr s.fs).1.nextUntr,
            retryAttempted := s.retryAttempted
              ++ (retry_untranslated_lines_sequential true tm tgt src color fmtv
                s.engine s.callNo s.untr s.fs).1.attempted,
            retrySuccesses := s.retrySuccesses
              + (retry_untranslated_lines_sequential true tm tgt src color fmtv
                s.engine s.callNo s.untr s.fs).1.successes,
            wasCancelled := false }) := by
  simp only [retryLoop, if_neg hne, if_neg (by decide : ¬ (true = false))]
  rw [retry_pass_true_snd]
  rfl

theorem retryLoop_key_bound (tm : TM) (tgt src color fmtv : String) :
    ∀ (fuel : Nat) (s : RunSt) (k : Key), (s.untr.map Prod.fst).Nodup →
      countKey k (retryLoop true tm tgt src color fmtv fuel s).retryAttempted
          + phiOpt (lookupA k (retryLoop true tm tgt src color fmtv fuel s).untr)
        ≤ countKey k s.retryAttempted + phiOpt (lookupA k s.untr) := by
  intro fuel
  induction fuel with
  | zero => intro s k _; exact Nat.le_refl _
  | succ fuel ih =>
    intro s k hnd
    by_cases hne : s.untr = []
    · simp only [retryLoop, if_pos hne]
      exact Nat.le_refl _
    · rw [retryLoop_true_succ tm tgt src color fmtv fuel s hne]
      have hb := retry_pass_key_bound tm tgt src color fmtv s.engine s.callNo s.untr
        s.fs hnd k
      have hnd1 := retry_pass_nextUntr_nodup tm tgt src color fmtv s.engine s.callNo
        s.untr s.fs
      by_cases hrem : (retry_untranslated_lines_sequential true tm tgt src color fmtv
          s.engine s.callNo s.untr s.fs).1.nextUntr.length = 0
      · rw [if_pos hrem]
        dsimp only
        rw [countKey_append]
        omega
      · rw [if_neg hrem]
        have h2 := ih
          { engine := (retry_untranslated_lines_sequential true tm tgt src color fmtv
              s.engine s.callNo s.untr s.fs).1.engine,
            callNo := (retry_untranslated_lines_sequential true tm tgt src color fmtv
              s.engine s.callNo s.untr s.fs).1.callNo,
            fs := (retry_untranslated_lines_sequential true tm tgt src color fmtv
              s.engine s.callNo s.untr s.fs).1.fs,
            untr := (retry_untranslated_lines_sequential true tm tgt src color fmtv
              s.engine s.callNo s.untr s.fs).1.nextUntr,
            retryAttempted := s.retryAttempted
              ++ (retry_untranslated_lines_sequential true tm tgt src color fmtv
                s.engine s.callNo s.untr s.fs).1.attempted,
            retrySuccesses := s.retrySuccesses
              + (retry_untranslated_lines_sequential true tm tgt src color fmtv
                s.engine s.callNo s.untr s.fs).1.successes,
            wasCancelled := false } k hnd1
        dsimp only at h2
        rw [countKey_append] at h2
        omega

theorem retryLoop_key_capped (tm : TM) (tgt src color fmtv : String) :
    ∀ (fuel : Nat) (s : RunSt) (k : Key) (d : FR), (s.untr.map Prod.fst).Nodup →
      lookupA k s.untr = some d → d.failure_count = MAX_FAILURES_PER_LINE →
      countKey k (retryLoop true tm tgt src color fmtv fuel s).retryAttempted
          = countKey k s.retryAttempted
        ∧ lookupA k (retryLoop true tm tgt src color fmtv fuel s).untr = some d := by
  intro fuel
  induction fuel with
  | zero => intro s k d _ hd _; exact ⟨rfl, hd⟩
  | succ fuel ih =>
    intro s k d hnd hd hcap
    have hne : ¬ s.untr = [] := by
      intro hc
      rw [hc] at hd
      cases hd
    rw [retryLoop_true_succ tm tgt src color fmtv fuel s hne]
    have hc2 := retry_pass_key_capped tm tgt src color fmtv s.engine s.callNo s.untr
      s.fs hnd k d hd hcap
    have hnd1 := retry_pass_nextUntr_nodup tm tgt src color fmtv s.engine s.callNo
      s.untr s.fs
    by_cases hrem : (retry_untranslated_lines_sequential true tm tgt src color fmtv
        s.engine s.callNo s.untr s.fs).1.nextUntr.length = 0
    · exfalso
      have := lookupA_mem hc2.2
      rw [List.length_eq_zero.mp hrem] at this
      simp at this
    · rw [if_neg hrem]
      have h2 := ih
        { engine := (retry_untranslated_lines_sequential true tm tgt src color fmtv
            s.engine s.callNo s.untr s.fs).1.engine,
          callNo := (retry_untranslated_lines_sequential true tm tgt src color fmtv
            s.engine s.callNo s.untr s.fs).1.callNo,
          fs := (retry_untranslated_lines_sequential true tm tgt src color fmtv
            s.engine s.callNo s.untr s.fs).1.fs,
          untr := (retry_untranslated_lines_sequential true tm tgt src color fmtv
            s.engine s.callNo s.untr s.fs).1.nextUntr,
          retryAttempted := s.retryAttempted
            ++ (retry_untranslated_lines_sequential true tm tgt src color fmtv
              s.engine s.callNo s.untr s.fs).1.attempted,
          retrySuccesses := s.retrySuccesses
            + (retry_untranslated_lines_sequential true tm tgt src color fmtv
              s.engine s.callNo s.untr s.fs).1.successes,
          wasCancelled := false } k d hnd1 hc2.2 hcap
      dsimp only at h2
      rw [countKey_append, hc2.1] at h2
      exact ⟨h2.1.trans (Nat.add_zero _), h2.2⟩

/-- C3: across any number of retry passes with the per-line cap
MAX_FAILURES_PER_LINE = C, no failure record receives more than C retry
attempts after its single initial parallel-pass attempt (one
translate_subtitle call per line), so no record is attempted more than
C + 1 times in total; and a record whose failure count has reached the cap
before the loop is never attempted in any pass and is carried into the
terminal untranslated set unchanged. -/
theorem C3_attempt_cap (tm : TM) (tgt src color fmtv : String) (fuel : Nat) (s : RunSt)
    (hnodup : (s.untr.map Prod.fst).Nodup) (hstart : s.retryAttempted = []) :
    (∀ k : Key,
      countKey k (retryLoop true tm tgt src color fmtv fuel s).retryAttempted + 1
        ≤ MAX_FAILURES_PER_LINE + 1)
    ∧ ∀ (k : Key) (d : FR), lookupA k s.untr = some d →
        d.failure_count = MAX_FAILURES_PER_LINE →
        countKey k (retryLoop true tm tgt src color fmtv fuel s).retryAttempted = 0
          ∧ lookupA k (retryLoop true tm tgt src color fmtv fuel s).untr = some d := by
  constructor
  · intro k
    have h := retryLoop_key_bound tm tgt src color fmtv fuel s k hnodup
    rw [hstart] at h
    have h0 : countKey k ([] : List Key) = 0 := rfl
    rw [h0] at h
    have hm := phiOpt_le_max (lookupA k s.untr)
    omega
  · intro k d hd hcap
    have h := retryLoop_key_capped tm tgt src color fmtv fuel s k d hnodup hd hcap
    rw [hstart] at h
    exact ⟨h.1, h.2⟩

/-- Witness for C3: one record already at the cap with a retranslation that
always fails; across 5 passes it is never attempted and survives unchanged,
and the total attempt count respects the cap. -/
theorem C3_attempt_cap_witness :
    (countKey ("o.srt", 1) (retryLoop true (fun _ st text _ _ => (st, text)) "Spanish"
        "Auto" "" "" 5
        ⟨⟨[], 0, 0, 0, ["e1"], 0⟩, 0, [("o.srt", [⟨1, "x"⟩])],
          [(("o.srt", 1), ⟨"x", 3⟩)], [], 0, false⟩).retryAttempted + 1
      ≤ MAX_FAILURES_PER_LINE + 1)
    ∧ countKey ("o.srt", 1) (retryLoop true (fun _ st text _ _ => (st, text)) "Spanish"
        "Auto" "" "" 5
        ⟨⟨[], 0, 0, 0, ["e1"], 0⟩, 0, [("o.srt", [⟨1, "x"⟩])],
          [(("o.srt", 1), ⟨"x", 3⟩)], [], 0, false⟩).retryAttempted = 0
    ∧ lookupA ("o.srt", 1) (retryLoop true (fun _ st text _ _ => (st, text)) "Spanish"
        "Auto" "" "" 5
        ⟨⟨[], 0, 0, 0, ["e1"], 0⟩, 0, [("o.srt", [⟨1, "x"⟩])],
          [(("o.srt", 1), ⟨"x", 3⟩)], [], 0, false⟩).untr = some ⟨"x", 3⟩ := by
  have h := C3_attempt_cap (fun _ st text _ _ => (st, text)) "Spanish" "Auto" "" "" 5
    ⟨⟨[], 0, 0, 0, ["e1"], 0⟩, 0, [("o.srt", [⟨1, "x"⟩])],
      [(("o.srt", 1), ⟨"x", 3⟩)], [], 0, false⟩ (by decide) rfl
  have h2 := h.2 ("o.srt", 1) ⟨"x", 3⟩ (by decide) rfl
  exact ⟨h.1 ("o.srt", 1), h2.1, h2.2⟩

/-! ### C4: the permanently-identical single line across the whole run -/

theorem groupPaths_singleton (k : Key) (d : FR) : groupPaths [(k, d)] = [k.1] := by
  simp [groupPaths]

theorem groupItems_self_singleton (k : Key) (d : FR) :
    groupItems [(k, d)] k.1 = [(k, d)] := by
  simp [groupItems]

/-- One retry pass over a single below-cap record whose retranslation comes
back unchanged: the record is attempted once, its failure count grows by
one, and nothing is written back. -/
theorem single_record_pass_fail (tm : TM) (tgt src color fmtv out : String) (idx : Nat)
    (txt : String) (c : Nat) (eng eng1 : EngineState) (cn : Nat) (fs : FileSystem)
    (hc : c < MAX_FAILURES_PER_LINE)
    (hfs : lookupA out fs = some [⟨idx, txt⟩])
    (htm : tm cn eng txt tgt src = (eng1, txt)) :
    retry_untranslated_lines_sequential true tm tgt src color fmtv eng cn
        [((out, idx), ⟨txt, c⟩)] fs
      = ({ engine := eng1, callNo := cn + 1, fs := fs,
           nextUntr := [((out, idx), ⟨txt, c + 1⟩)], successes := 0,
           attempted := [(out, idx)], successKeys := [] }, false) := by
  unfold retry_untranslated_lines_sequential
  rw [if_neg (by simp : ¬ ([((out, idx), (⟨txt, c⟩ : FR))] : FRMap) = [])]
  have hgp : groupPaths [((out, idx), (⟨txt, c⟩ : FR))] = [out] :=
    groupPaths_singleton ((out, idx)) ⟨txt, c⟩
  rw [hgp, retryPassAux_true_step]
  have hgi : groupItems [((out, idx), (⟨txt, c⟩ : FR))] out = [((out, idx), ⟨txt, c⟩)] :=
    groupItems_self_singleton ((out, idx)) ⟨txt, c⟩
  rw [hgi]
  rw [processOneFile_true_present tm tgt src color fmtv _ out _ [⟨idx, txt⟩] hfs]
  have hstep : [((out, idx), (⟨txt, c⟩ : FR))].foldl (itemStep tm tgt src color fmtv)
      (fileStart
        { engine := eng, callNo := cn, fs := fs, nextUntr := [], successes := 0,
          attempted := [], successKeys := [] } [⟨idx, txt⟩])
      = { engine := eng1, callNo := cn + 1, subs := [⟨idx, txt⟩], modified := false,
          nextUntr := [((out, idx), ⟨txt, c + 1⟩)], successes := 0,
          attempted := [(out, idx)], successKeys := [] } := by
    rw [List.foldl_cons, List.foldl_nil]
    dsimp only [itemStep, fileStart]
    rw [if_neg (Nat.not_le.mpr hc)]
    rw [show List.find? (fun x => x.index = idx) [(⟨idx, txt⟩ : Sub)]
      = some ⟨idx, txt⟩ by simp]
    dsimp only
    rw [if_neg (show ¬ pyStrip txt ≠ pyStrip txt from fun h => h rfl)]
    rw [htm]
    dsimp only
    rw [if_neg (show ¬ (pyStrip txt ≠ "" ∧ pyStrip txt ≠ pyStrip txt) from
      fun h => h.2 rfl)]
    rfl
  rw [hstep]
  rfl

/-- One retry pass over a single record already at the cap: nothing is
attempted, nothing changes, the record is carried as is. -/
theorem single_capped_pass (tm : TM) (tgt src color fmtv : String) (key : Key)
    (o : String) (eng : EngineState) (cn : Nat) (fs : FileSystem) :
    retry_untranslated_lines_sequential true tm tgt src color fmtv eng cn
        [(key, ⟨o, MAX_FAILURES_PER_LINE⟩)] fs
      = ({ engine := eng, callNo := cn, fs := fs,
           nextUntr := [(key, ⟨o, MAX_FAILURES_PER_LINE⟩)], successes := 0,
           attempted := [], successKeys := [] }, false) := by
  unfold retry_untranslated_lines_sequential
  rw [if_neg (by simp : ¬ ([(key, (⟨o, MAX_FAILURES_PER_LINE⟩ : FR))] : FRMap) = [])]
  rw [groupPaths_singleton key ⟨o, MAX_FAILURES_PER_LINE⟩, retryPassAux_true_step,
    groupItems_self_singleton key ⟨o, MAX_FAILURES_PER_LINE⟩]
  cases hfs : lookupA key.1 fs with
  | none =>
    rw [processOneFile_true_missing tm tgt src color fmtv _ key.1 _ hfs]
    rfl
  | some subs =>
    rw [processOneFile_true_present tm tgt src color fmtv _ key.1 _ subs hfs]
    have hstep : [(key, (⟨o, MAX_FAILURES_PER_LINE⟩ : FR))].foldl
        (itemStep tm tgt src color fmtv)
        (fileStart
          { engine := eng, callNo := cn, fs := fs, nextUntr := [], successes := 0,
            attempted := [], successKeys := [] } subs)
        = { engine := eng, callNo := cn, subs := subs, modified := false,
            nextUntr := [(key, ⟨o, MAX_FAILURES_PER_LINE⟩)], successes := 0,
            attempted := [], successKeys := [] } := by
      rw [List.foldl_cons, List.foldl_nil]
      dsimp only [itemStep, fileStart]
      rw [if_pos (Nat.le_refl MAX_FAILURES_PER_LINE)]
      rfl
    rw [hstep]
    rfl

/-- The retry loop is inert on a single record at the cap: every remaining
pass skips it. -/
theorem retryLoop_capped_singleton (tm : TM) (tgt src color fmtv : String) (key : Key)
    (o : String) :
    ∀ (fuel : Nat) (s : RunSt), s.untr = [(key, ⟨o, MAX_FAILURES_PER_LINE⟩)] →
      s.wasCancelled = false →
      retryLoop true tm tgt src color fmtv fuel s = s := by
  intro fuel
  induction fuel with
  | zero => intro s _ _; rfl
  | succ fuel ih =>
    intro s huntr hwc
    cases s with
    | mk e cN f u ra rs wc =>
      simp only at huntr hwc
      subst huntr
      subst hwc
      have hne : ¬ (RunSt.mk e cN f [(key, ⟨o, MAX_FAILURES_PER_LINE⟩)] ra rs
          false).untr = [] := by
        simp
      rw [retryLoop_true_succ tm tgt src color fmtv fuel _ hne]
      dsimp only
      rw [single_capped_pass tm tgt src color fmtv key o e cN f]
      dsimp only
      rw [if_neg (by simp :
        ¬ ([(key, (⟨o, MAX_FAILURES_PER_LINE⟩ : FR))] : FRMap).length = 0)]
      rw [List.append_nil, Nat.add_zero]
      exact ih _ rfl rfl

/-- Counterexample to C4 as stated: for a single line whose translation
always returns the input text, cap 3 and 3 retry passes configured, the
run performs exactly 2 sequential retry attempts, not 3 — the initial
parallel-pass failure already counts as the first of the
MAX_FAILURES_PER_LINE = 3 failures, so the record reaches the cap after
two retries.  final-unresolved is 1 as claimed. -/
theorem C4_exactly_three_retries_counterexample :
    (translate_files_run (fun n => if n = "Spanish" then some "es" else none) true
        (fun _ _ => NetResponse.ok "hola") "" "" "Auto" "Spanish" "out.srt"
        [⟨1, "hola"⟩] ⟨[], 0, 0, 0, ["e1"], 0⟩ [] 3).retryAttempted.length = 2
    ∧ ¬ (translate_files_run (fun n => if n = "Spanish" then some "es" else none) true
        (fun _ _ => NetResponse.ok "hola") "" "" "Auto" "Spanish" "out.srt"
        [⟨1, "hola"⟩] ⟨[], 0, 0, 0, ["e1"], 0⟩ [] 3).retryAttempted.length = 3
    ∧ (translate_files_run (fun n => if n = "Spanish" then some "es" else none) true
        (fun _ _ => NetResponse.ok "hola") "" "" "Auto" "Spanish" "out.srt"
        [⟨1, "hola"⟩] ⟨[], 0, 0, 0, ["e1"], 0⟩ [] 3).initialAttempts = 1
    ∧ (translate_files_run (fun n => if n = "Spanish" then some "es" else none) true
        (fun _ _ => NetResponse.ok "hola") "" "" "Auto" "Spanish" "out.srt"
        [⟨1, "hola"⟩] ⟨[], 0, 0, 0, ["e1"], 0⟩ [] 3).final_untranslated_count = 1 := by
  refine ⟨by decide, by decide, by decide, by decide⟩

/-- C4 as amended: a single line whose translation permanently returns
text equal (after stripping) to its input, with cap
MAX_FAILURES_PER_LINE = 3 and at least 3 retry passes configured, ends the
run with final-unresolved = 1 after exactly 1 initial attempt and exactly
2 sequential retry attempts (the initial failure counts toward the cap of
3), and the run is not cancelled. -/
theorem C4_single_line_amended (languages : String → Option String)
    (nets : Nat → Nat → NetResponse)
    (subtitle_color format_var source_lang target_lang output_path : String)
    (idx : Nat) (txt : String) (st0 : EngineState) (fs0 : FileSystem) (m : Nat)
    (tc sc : String)
    (htc : languages target_lang = some tc)
    (hsc : (if source_lang = "Auto" then some "auto" else languages source_lang)
      = some sc)
    (hid : ∀ p a t, nets p a = NetResponse.ok t → pyStrip t = pyStrip txt)
    (hmiss : lookupA (cacheKey sc tc (pyStrip txt)) st0.translation_cache = none)
    (hm : 3 ≤ m) :
    (translate_files_run languages true nets subtitle_color format_var source_lang
        target_lang output_path [⟨idx, txt⟩] st0 fs0 m).final_untranslated_count = 1
    ∧ (translate_files_run languages true nets subtitle_color format_var source_lang
        target_lang output_path [⟨idx, txt⟩] st0 fs0 m).initialAttempts = 1
    ∧ (translate_files_run languages true nets subtitle_color format_var source_lang
        target_lang output_path [⟨idx, txt⟩] st0 fs0 m).retryAttempted
      = [(output_path, idx), (output_path, idx)]
    ∧ (translate_files_run languages true nets subtitle_color format_var source_lang
        target_lang output_path [⟨idx, txt⟩] st0 fs0 m).wasCancelled = false := by
  obtain ⟨m', rfl⟩ : ∃ m', m = m' + 3 := ⟨m - 3, by omega⟩
  obtain ⟨st1, hsub0, hcache1⟩ := translate_subtitle_identical languages true (nets 0)
    subtitle_color format_var st0 ⟨idx, txt⟩ source_lang target_lang tc sc htc hsc
    (hid 0) hmiss
  have hsub : translate_subtitle languages true (nets 0) subtitle_color format_var st0
      ⟨idx, txt⟩ source_lang target_lang = (st1, (idx, txt, false, txt)) := hsub0
  obtain ⟨eng2, htm1, hcache2⟩ := translate_text_direct_identical languages true
    (nets 1) st1 txt target_lang source_lang 3 tc sc htc hsc (hid 1)
    (by rw [hcache1]; exact hmiss)
  obtain ⟨eng3, htm2, hcache3⟩ := translate_text_direct_identical languages true
    (nets 2) eng2 txt target_lang source_lang 3 tc sc htc hsc (hid 2)
    (by rw [hcache2, hcache1]; exact hmiss)
  have hrt : runTasks languages true nets subtitle_color format_var source_lang
      target_lang [⟨idx, txt⟩] st0 0
      = (st1, 1, [Event.result idx txt false txt]) := by
    unfold runTasks
    rw [hsub]
    rfl
  have hpf : process_file_parallel output_path [⟨idx, txt⟩]
      [(true, Event.result idx txt false txt)] [] fs0
      = (Outcome.done ([⟨idx, txt⟩], [((output_path, idx), ⟨txt, 1⟩)], 1, 1),
        save_subtitles [⟨idx, txt⟩] output_path fs0) :=
    collect_single_failure output_path ⟨idx, txt⟩ [] fs0
  have hfs : lookupA output_path (save_subtitles [⟨idx, txt⟩] output_path fs0)
      = some [⟨idx, txt⟩] := lookupA_setA_self _ _ _
  have hp1 := single_record_pass_fail
    (fun k st text tg sr => translate_text_direct languages true (nets k) st text tg sr 3)
    target_lang source_lang subtitle_color format_var output_path idx txt 1 st1 eng2 1
    (save_subtitles [⟨idx, txt⟩] output_path fs0) (by decide) hfs htm1
  have hp2 := single_record_pass_fail
    (fun k st text tg sr => translate_text_direct languages true (nets k) st text tg sr 3)
    target_lang source_lang subtitle_color format_var output_path idx txt 2 eng2 eng3 2
    (save_subtitles [⟨idx, txt⟩] output_path fs0) (by decide) hfs htm2
  have hL2 := retryLoop_capped_singleton
    (fun k st text tg sr => translate_text_direct languages true (nets k) st text tg sr 3)
    target_lang source_lang subtitle_color format_var (output_path, idx) txt (m' + 1)
    ⟨eng3, 3, save_subtitles [⟨idx, txt⟩] output_path fs0,
      [((output_path, idx), ⟨txt, 3⟩)], [(output_path, idx), (output_path, idx)], 0,
      false⟩ rfl rfl
  have hL1 : retryLoop true
      (fun k st text tg sr => translate_text_direct languages true (nets k) st text tg sr 3)
      target_lang source_lang subtitle_color format_var (m' + 2)
      ⟨eng2, 2, save_subtitles [⟨idx, txt⟩] output_path fs0,
        [((output_path, idx), ⟨txt, 2⟩)], [(output_path, idx)], 0, false⟩
      = ⟨eng3, 3, save_subtitles [⟨idx, txt⟩] output_path fs0,
        [((output_path, idx), ⟨txt, 3⟩)], [(output_path, idx), (output_path, idx)], 0,
        false⟩ := by
    rw [retryLoop_true_succ _ _ _ _ _ (m' + 1) _ (by simp)]
    dsimp only
    rw [hp2]
    dsimp only
    rw [if_neg (by simp : ¬ ([((output_path, idx), (⟨txt, 3⟩ : FR))] : FRMap).length = 0)]
    rw [show ([(output_path, idx)] ++ [(output_path, idx)] : List Key)
      = [(output_path, idx), (output_path, idx)] by rfl]
    rw [Nat.add_zero]
    exact hL2
  have hL0 : retryLoop true
      (fun k st text tg sr => translate_text_direct languages true (nets k) st text tg sr 3)
      target_lang source_lang subtitle_color format_var (m' + 3)
      ⟨st1, 1, save_subtitles [⟨idx, txt⟩] output_path fs0,
        [((output_path, idx), ⟨txt, 1⟩)], [], 0, false⟩
      = ⟨eng3, 3, save_subtitles [⟨idx, txt⟩] output_path fs0,
        [((output_path, idx), ⟨txt, 3⟩)], [(output_path, idx), (output_path, idx)], 0,
        false⟩ := by
    rw [retryLoop_true_succ _ _ _ _ _ (m' + 2) _ (by simp)]
    dsimp only
    rw [hp1]
    dsimp only
    rw [if_neg (by simp : ¬ ([((output_path, idx), (⟨txt, 2⟩ : FR))] : FRMap).length = 0)]
    rw [show (([] : List Key) ++ [(output_path, idx)]) = [(output_path, idx)] by rfl]
    rw [Nat.add_zero]
    exact hL1
  unfold translate_files_run
  rw [hrt]
  dsimp only
  rw [show List.map (fun e => ((true : Bool), e)) [Event.result idx txt false txt]
    = [(true, Event.result idx txt false txt)] from rfl]
  rw [hpf]
  dsimp only
  rw [hL0]
  exact ⟨rfl, rfl, rfl, rfl⟩

/-- Witness for the amended C4 at a concrete line and oracle. -/
theorem C4_single_line_amended_witness :
    (translate_files_run (fun n => if n = "Spanish" then some "es" else none) true
        (fun _ _ => NetResponse.ok "hola") "" "" "Auto" "Spanish" "out.srt"
        [⟨1, "hola"⟩] ⟨[], 0, 0, 0, ["e1"], 0⟩ [] 4).final_untranslated_count = 1
    ∧ (translate_files_run (fun n => if n = "Spanish" then some "es" else none) true
        (fun _ _ => NetResponse.ok "hola") "" "" "Auto" "Spanish" "out.srt"
        [⟨1, "hola"⟩] ⟨[], 0, 0, 0, ["e1"], 0⟩ [] 4).initialAttempts = 1
    ∧ (translate_files_run (fun n => if n = "Spanish" then some "es" else none) true
        (fun _ _ => NetResponse.ok "hola") "" "" "Auto" "Spanish" "out.srt"
        [⟨1, "hola"⟩] ⟨[], 0, 0, 0, ["e1"], 0⟩ [] 4).retryAttempted
      = [("out.srt", 1), ("out.srt", 1)]
    ∧ (translate_files_run (fun n => if n = "Spanish" then some "es" else none) true
        (fun _ _ => NetResponse.ok "hola") "" "" "Auto" "Spanish" "out.srt"
        [⟨1, "hola"⟩] ⟨[], 0, 0, 0, ["e1"], 0⟩ [] 4).wasCancelled = false := by
  exact C4_single_line_amended (fun n => if n = "Spanish" then some "es" else none)
    (fun _ _ => NetResponse.ok "hola") "" "" "Auto" "Spanish" "out.srt" 1 "hola"
    ⟨[], 0, 0, 0, ["e1"], 0⟩ [] 4 "es" "auto" (by decide) (by decide)
    (by intro p a t h; cases h; rfl) (by decide) (by decide)

/-! ### C9: output naming

get_output_path is a deterministic pattern mapping, but it never consults
the set of files already on disk (it has no filesystem access at all), so
it cannot avoid collisions: when the computed name already exists, that
same name is returned and will be overwritten by the save. -/

/-- Counterexample to the collision-avoidance half of C9: with the file
/m/movie.es.srt already existing, get_output_path for /m/movie.srt to
Spanish still returns exactly /m/movie.es.srt, a member of the existing
set, rather than a different non-existing name. -/
theorem C9_collision_counterexample :
    get_output_path (fun n => if n = "Spanish" then some "es" else none)
        "Original.language" "/m/movie.srt" "Spanish" = "/m/movie.es.srt"
    ∧ get_output_path (fun n => if n = "Spanish" then some "es" else none)
        "Original.language" "/m/movie.srt" "Spanish" ∈ ["/m/movie.es.srt"] := by
  refine ⟨by decide, by decide⟩

/-- C9 as amended: the output name is a deterministic mapping of the input
directory and base name, the target language and the naming pattern — the
function reads its input path only through dirname and basename — and no
collision avoidance is performed. -/
theorem C9_output_naming_amended (languages : String → Option String)
    (naming_var target_lang p q : String)
    (h1 : dirname p = dirname q) (h2 : basename p = basename q) :
    get_output_path languages naming_var p target_lang
      = get_output_path languages naming_var q target_lang := by
  unfold get_output_path
  rw [h1, h2]

/-- Witness for the amended C9: two distinct spellings of the same
location (a doubled slash) produce the same output name. -/
theorem C9_output_naming_amended_witness :
    get_output_path (fun n => if n = "Spanish" then some "es" else none)
        "Original.language" "/m//movie.srt" "Spanish"
      = get_output_path (fun n => if n = "Spanish" then some "es" else none)
        "Original.language" "/m/movie.srt" "Spanish" := by
  exact C9_output_naming_amended (fun n => if n = "Spanish" then some "es" else none)
    "Original.language" "Spanish" "/m//movie.srt" "/m/movie.srt" (by decide) (by decide)

end ST
